import Mathlib

/-! Path refinement and Java call-graph strategy of the debricked CLI.

A shallow embedding of `internal/io/finder/refiner.go` (`MapFilesToDir`,
`GCDPath`) and of `pkg/callgraph/language/java11/stategy.go`
(`Strategy.Invoke`), with the properties the specification states about them.

Go strings are byte sequences, indexed byte by byte; a path is modelled as the
list of its bytes.  `filepath.Separator` depends on the platform and is a
parameter `sep` of every definition that uses it.
-/

namespace Finder

/-- A Go string: the sequence of its bytes. -/
abbrev Path := List Nat

/-- The bytes of a string literal (one byte per character for ASCII text). -/
def str (s : String) : Path := s.toList.map Char.toNat

/-- The byte of the separator of Unix paths. -/
def slash : Nat := 47

/-! ## GCDPath -/

/-- The first loop of `GCDPath`, from the second path on: `shortest` is replaced
by a path that is strictly shorter. -/
def shortestLoop : Path → List Path → Path
  | shortest, [] => shortest
  | shortest, path :: rest =>
    if path.length < shortest.length then shortestLoop path rest
    else shortestLoop shortest rest

/-- The first loop of `GCDPath`: the first of the shortest paths, the empty
string for no path at all (`i == 0` takes the first path unconditionally). -/
def shortestPath : List Path → Path
  | [] => []
  | path :: rest => shortestLoop path rest

/-- The inner loop of `GCDPath`: `strings.HasPrefix(path, dirpath)` for every
path. -/
def allHavePrefix (dirpath : Path) (paths : List Path) : Bool :=
  paths.all (fun path => dirpath.isPrefixOf path)

/-- The second loop of `GCDPath`, with `n` iterations left, at index `i`. -/
def gcdLoop (sep : Nat) (paths : List Path) (shortest : Path) :
    Nat → Nat → Path → Path
  | 0, _, result => result
  | n + 1, i, result =>
    if shortest.get? i = some sep then
      if allHavePrefix (shortest.take (i + 1)) paths then
        gcdLoop sep paths shortest n (i + 1) (shortest.take (i + 1))
      else result
    else gcdLoop sep paths shortest n (i + 1) result

/-- The function `GCDPath` of refiner.go. -/
def GCDPath (sep : Nat) (paths : List Path) : Path :=
  let shortest := shortestPath paths
  gcdLoop sep paths shortest shortest.length 0 []

/-! ## MapFilesToDir -/

/-- The character loop of `MapFilesToDir` over `file[i]` and `dir[i]`, both
strings from index `i` on; it returns `longestSeperatorMatch`. -/
def sepMatchLoop (sep : Nat) : Path → Path → Nat → Nat → Nat
  | fc :: file, dc :: dir, matchLength, longestSeperatorMatch =>
    if fc ≠ dc then longestSeperatorMatch
    else
      sepMatchLoop sep file dir (matchLength + 1)
        (if sep = fc then matchLength + 1 else longestSeperatorMatch)
  | _, _, _, longestSeperatorMatch => longestSeperatorMatch

/-- The variables `longestMatchLength`, `matchingDir` and `matched` that
`MapFilesToDir` keeps for one file. -/
structure DirScan where
  longestMatchLength : Nat
  matchingDir : Path
  matched : Bool
  deriving DecidableEq, Repr

/-- The loop of `MapFilesToDir` over `dirs`, for one file. -/
def dirLoop (sep : Nat) (file : Path) : List Path → DirScan → DirScan
  | [], st => st
  | dir :: rest, st =>
    if sepMatchLoop sep file dir 0 0 > st.longestMatchLength then
      dirLoop sep file rest ⟨sepMatchLoop sep file dir 0 0, dir, true⟩
    else dirLoop sep file rest st

/-- A Go `map[string][]string`: its entries, unique by key, in the order the
keys were first set. -/
abbrev DirMap := List (Path × List Path)

/-- The lookup `m[key]` with its `ok` flag. -/
def mapGet : DirMap → Path → Option (List Path)
  | [], _ => none
  | (k, v) :: m, key => if k = key then some v else mapGet m key

/-- The assignment `m[key] = val`. -/
def mapSet : DirMap → Path → List Path → DirMap
  | [], key, val => [(key, val)]
  | (k, v) :: m, key, val =>
    if k = key then (key, val) :: m else (k, v) :: mapSet m key val

/-- The loop of `MapFilesToDir` over `files`. -/
def fileLoop (sep : Nat) (dirs : List Path) : List Path → DirMap → DirMap
  | [], dirToFilesMap => dirToFilesMap
  | file :: rest, dirToFilesMap =>
    let st := dirLoop sep file dirs ⟨0, [], false⟩
    if !st.matched then fileLoop sep dirs rest dirToFilesMap
    else
      let m1 :=
        if (mapGet dirToFilesMap st.matchingDir).isNone then
          mapSet dirToFilesMap st.matchingDir []
        else dirToFilesMap
      fileLoop sep dirs rest
        (mapSet m1 st.matchingDir ((mapGet m1 st.matchingDir).getD [] ++ [file]))

/-- The function `MapFilesToDir` of refiner.go. -/
def MapFilesToDir (sep : Nat) (dirs files : List Path) : DirMap :=
  if dirs.length = 0 then [] else fileLoop sep dirs files []

/-- The number of file entries over all keys of a map. -/
def totalEntries (m : DirMap) : Nat := (m.map (fun e => e.2.length)).sum

/-- The directory that `MapFilesToDir` chooses for one file: `matchingDir` when
`matched` is set after the loop over `dirs`, no directory otherwise. -/
def ownerDir (sep : Nat) (dirs : List Path) (file : Path) : Option Path :=
  if (dirLoop sep file dirs ⟨0, [], false⟩).matched then
    some (dirLoop sep file dirs ⟨0, [], false⟩).matchingDir
  else none

/-- The files, in their order, for which `MapFilesToDir` chooses the directory
`k`. -/
def filesOf (sep : Nat) (dirs files : List Path) (k : Path) : List Path :=
  files.filter (fun f => decide (ownerDir sep dirs f = some k))

/-- The two assignments of `MapFilesToDir` for a file matched with the
directory `d`: the key is created with an empty list when absent, then the
file is appended to its list. -/
def addFile (m : DirMap) (d file : Path) : DirMap :=
  mapSet (if (mapGet m d).isNone then mapSet m d [] else m) d
    ((mapGet (if (mapGet m d).isNone then mapSet m d [] else m) d).getD [] ++ [file])

/-- The loop invariant of `MapFilesToDir` after the files `done`: keys are
unique, and a key is present exactly with the files it was chosen for, in
their order. -/
def MapInv (sep : Nat) (dirs : List Path) (m : DirMap) (done : List Path) : Prop :=
  (m.map Prod.fst).Nodup ∧
    ∀ k, mapGet m k =
      if filesOf sep dirs done k = [] then none else some (filesOf sep dirs done k)

/-- The property "deepest common separator-terminated prefix" of the
specification: `r` is a prefix of every path, `r` is empty or ends with the
separator, and no longer string that ends with the separator is a prefix of
every path. -/
def IsDeepestCommonDir (sep : Nat) (paths : List Path) (r : Path) : Prop :=
  (∀ p ∈ paths, r <+: p) ∧ (r = [] ∨ r.getLast? = some sep) ∧
    ∀ s : Path, s.getLast? = some sep → (∀ p ∈ paths, s <+: p) → s.length ≤ r.length

/-! ## The specification's vocabulary -/

/-- The specification's `match(d, f)`: the length of the longest common prefix
of `d` and `f` that ends with the path separator, 0 if there is none. -/
def sepMatch (sep : Nat) (d f : Path) : Nat :=
  ((List.range (min d.length f.length + 1)).filter
    (fun n => decide (d.take n = f.take n ∧ (d.take n).getLast? = some sep))).foldr max 0

/-- The specification's "cut after its last separator": the path up to and
including its last separator, empty if it has none. -/
def cutAfterLastSep (sep : Nat) (p : Path) : Path :=
  (p.reverse.dropWhile (fun c => decide (c ≠ sep))).reverse

/-- The specification's "path prefix at a separator boundary": `f` starts with
`d`, and `d` ends with the separator or the byte of `f` right after `d` is the
separator. -/
def IsUnder (sep : Nat) (d f : Path) : Prop :=
  d <+: f ∧ (d.getLast? = some sep ∨ f.get? d.length = some sep)

instance (sep : Nat) (d f : Path) : Decidable (IsUnder sep d f) := by
  unfold IsUnder; infer_instance

/-- The common prefixes of `d` and `f` that contain a path separator. -/
def SharesDir (sep : Nat) (d f : Path) : Prop :=
  ∃ p : Path, p <+: d ∧ p <+: f ∧ sep ∈ p

/-- The keys of a map that list the file `f`. -/
def Lists (m : DirMap) (d f : Path) : Prop :=
  ∃ fs, (d, fs) ∈ m ∧ f ∈ fs

end Finder

namespace Java

open Finder

/-- Modelled from the spec: the configuration type `conf.IConfig` (package
`pkg/callgraph/config`) is not among the sources; a configuration carries a
language tag, arguments and the keyword options, as `config.NewConfig` of the
tests builds it. -/
structure Config where
  language : String
  args : List String
  kwargs : List (String × String)
  deriving DecidableEq, Repr

/-- The lookup `Kwargs()[key]` in the keyword options: a Go map returns the
empty string for an absent key. -/
def Config.Kwargs (c : Config) (key : String) : String :=
  (c.kwargs.lookup key).getD ""

/-- The constant `maven` of job.go. -/
def maven : String := "maven"

/-- The constant `gradle` of job.go. -/
def gradle : String := "gradle"

/-- Modelled from the spec: `job.BaseJob` (package `pkg/callgraph/job`) is not
among the sources; a job owns a working directory (`GetDir`) and a list of
targets (`GetFiles`), and the Java job adds the configuration, which is an
interface value and may be nil. -/
structure Job where
  dir : Path
  files : List Path
  config : Option Config
  deriving DecidableEq, Repr

/-- The constructor `NewJob` of job.go (the command factory and the writer
carry no data). -/
def NewJob (dir : Path) (files : List Path) (config : Option Config) : Job :=
  ⟨dir, files, config⟩

/-- The accessor `GetDir` of a job. -/
def Job.GetDir (j : Job) : Path := j.dir

/-- The accessor `GetFiles` of a job. -/
def Job.GetFiles (j : Job) : List Path := j.files

/-- The routines of package `pkg/io/finder` that `Invoke` calls and that are
not among the sources, as parameters: the two root finders return roots and an
error, the class-directory finder returns directories. -/
structure FinderFns where
  FindMavenRoots : List Path → List Path × Option String
  FindGradleRoots : List Path → List Path × Option String
  FindJavaClassDirs : List Path → List Path

/-- The order in which a `for ... range` statement visits the entries of a Go
map: unspecified, some rearrangement of the entries. -/
structure RangeOrder where
  order : DirMap → DirMap
  perm : ∀ m, (order m).Perm m

/-- The range order that visits keys in the order of their first assignment. -/
def insertionOrder : RangeOrder := ⟨id, fun _ => List.Perm.refl _⟩

/-- The range order that visits keys in the reverse of that order. -/
def reverseOrder : RangeOrder := ⟨List.reverse, fun m => List.reverse_perm m⟩

/-- The type `Strategy` of stategy.go; the configuration is an interface value
and may be nil. -/
structure Strategy where
  config : Option Config
  files : List Path

/-- The constructor `NewStrategy` of stategy.go. -/
def NewStrategy (config : Option Config) (files : List Path) : Strategy :=
  ⟨config, files⟩

/-- The `switch pmConfig` of `Invoke`: the roots and the error of the root
finder chosen by the value of the `pm` option. -/
def findRoots (fd : FinderFns) (pmConfig : String) (files : List Path) :
    List Path × Option String :=
  if pmConfig = gradle then fd.FindGradleRoots files
  else if pmConfig = maven then fd.FindMavenRoots files
  else fd.FindMavenRoots files

/-- The loop of `Invoke` over the entries of `rootClassMapping`, in the order
they are visited: one job is appended per entry. -/
def jobsLoop (sep : Nat) (config : Option Config) : DirMap → List Job → List Job
  | [], jobs => jobs
  | (rootDir, classDirs) :: rest, jobs =>
    jobsLoop sep config rest
      (jobs ++ [NewJob rootDir [GCDPath sep classDirs] config])

/-- The method `Strategy.Invoke` of stategy.go.  The result `none` is a run-time
panic: `s.config.Kwargs()` on a nil interface value.  The root finder's error
is only printed; the returned error is always nil. -/
def Invoke (fd : FinderFns) (ro : RangeOrder) (sep : Nat) (s : Strategy) :
    Option (List Job × Option String) :=
  match s.config with
  | none => none
  | some cfg =>
    let pmConfig := cfg.Kwargs "pm"
    let roots := (findRoots fd pmConfig s.files).1
    let classDirs := fd.FindJavaClassDirs s.files
    let rootClassMapping := MapFilesToDir sep roots classDirs
    some (jobsLoop sep s.config (ro.order rootClassMapping) [], none)

/-- The value of `rootClassMapping` in `Invoke`, for a strategy with the
configuration `cfg`: the class directories of the files, mapped to the roots
that the `pm` option selects. -/
def rootClassMapping (fd : FinderFns) (sep : Nat) (cfg : Config) (files : List Path) :
    DirMap :=
  MapFilesToDir sep (findRoots fd (cfg.Kwargs "pm") files).1 (fd.FindJavaClassDirs files)

/-- The working directory and the targets of a job. -/
def Job.dirAndFiles (j : Job) : Path × List Path := (j.GetDir, j.GetFiles)

/-- A finder whose routines ignore the file list and return fixed lists, as
the finder mock of the tests does. -/
def constFinder (mavenRoots gradleRoots classDirs : List Path) : FinderFns :=
  ⟨fun _ => (mavenRoots, none), fun _ => (gradleRoots, none), fun _ => classDirs⟩

/-! ## Job.Run -/

/-- Modelled from the spec: the error collector `job.IErrors` is not among the
sources; it keeps the recorded errors in insertion order, each with the flag
"critical". -/
structure Errors where
  entries : List (Bool × String)
  deriving DecidableEq, Repr

/-- The method `Critical` of the collector: the error is recorded as critical. -/
def Errors.Critical (e : Errors) (err : String) : Errors :=
  ⟨e.entries ++ [(true, err)]⟩

/-- The method `HasError` of the collector: some recorded error is critical. -/
def Errors.HasError (e : Errors) : Bool := e.entries.any (fun x => x.1)

/-- The method `GetAll` of the collector: all recorded errors, in the order
they were recorded. -/
def Errors.GetAll (e : Errors) : List String := e.entries.map (fun x => x.2)

/-- The errors of `os.Stat`, by what `os.IsNotExist` and `os.IsExist` tell
apart: the file does not exist, the file already exists, any other error. -/
inductive OsError where
  | notExist
  | exist
  | other
  deriving DecidableEq, Repr

/-- The predicate `os.IsNotExist` on the error of `os.Stat`, `none` for nil. -/
def IsNotExist : Option OsError → Bool
  | some OsError.notExist => true
  | _ => false

/-- The predicate `os.IsExist` on the error of `os.Stat`, `none` for nil: it
holds of the errors that report an existing file, not of the nil error. -/
def IsExist : Option OsError → Bool
  | some OsError.exist => true
  | _ => false

/-- A command (`*exec.Cmd`): its argument list. -/
abbrev Cmd := List Path

/-- What `Job.Run` does to the outside, in the order it does it. -/
inductive Event where
  | writeInitFile (groovyFilePath : Path)
  | makeGradleCmd (workingDirectory gradlew groovyFilePath : Path)
  | makeMvnCmd (workingDirectory targetDir : Path)
  | sendStatus (msg : Path)
  | cmdOutput (cmd : Cmd)
  | makeCallGraphCmd (jar workingDirectory targetClasses targetDir : Path)
  | runCommand (cmd : Cmd)
  deriving DecidableEq, Repr

/-- The surroundings of `Job.Run`: the file system, the command factory and the
commands it builds, as results of the calls. -/
structure RunEnv where
  join : Path → Path → Path
  stat : Path → Option OsError
  MakeGradleCopyDependenciesCmd : Path → Path → Path → Cmd × Option String
  MakeMvnCopyDependenciesCmd : Path → Path → Cmd × Option String
  output : Cmd → Option String
  openJar : Option String
  mkdirTemp : Path × Option String
  readAll : Option String
  writeFile : Path → Option String
  MakeCallGraphGenerationCmd : Path → Path → Path → Path → Cmd × Option String
  RunCommand : Cmd → Option String

/-- The part of a job that `Run` changes: its error collector, and the record
of what it did. -/
structure RunState where
  errors : Errors
  events : List Event
  deriving DecidableEq, Repr

/-- How a call of `Job.Run` ends: a panic on `GetFiles()[0]`, a panic on
`j.config.Kwargs()`, or a normal return. -/
inductive RunOutcome where
  | indexOutOfRange
  | nilConfig
  | done (st : RunState)
  deriving DecidableEq, Repr

/-- The message of the status sent before the staging command is run. -/
def copyingStatus (targetDir : Path) : Path :=
  str "copying external dep jars to target folder" ++ targetDir

/-- The message of the status sent before the analysis. -/
def generatingStatus : Path := str "generating call graph"

/-- The method `runCallGraph` of callgraph.go: the events and the error. -/
def runCallGraph (env : RunEnv) (callgraphJarPath workingDirectory targetClasses
    targetDir : Path) : List Event × Option String :=
  match env.MakeCallGraphGenerationCmd callgraphJarPath workingDirectory targetClasses
      targetDir with
  | (_, some err) =>
    ([Event.makeCallGraphCmd callgraphJarPath workingDirectory targetClasses targetDir],
      some err)
  | (osCmd, none) =>
    ([Event.makeCallGraphCmd callgraphJarPath workingDirectory targetClasses targetDir,
      Event.runCommand osCmd], env.RunCommand osCmd)

/-- The method `runCallGraphWithSetup` of callgraph.go: the events and the
error. -/
def runCallGraphWithSetup (env : RunEnv) (workingDirectory targetClasses
    targetDir : Path) : List Event × Option String :=
  match env.openJar with
  | some err => ([], some err)
  | none =>
    match env.mkdirTemp with
    | (_, some err) => ([], some err)
    | (tempDir, none) =>
      match env.readAll with
      | some err => ([], some err)
      | none =>
        match env.writeFile (env.join tempDir (str "SootWrapper.jar")) with
        | some err => ([], some err)
        | none =>
          runCallGraph env (env.join tempDir (str "SootWrapper.jar")) workingDirectory
            targetClasses targetDir

/-- The choice of the staging command in `Job.Run`: the events, the command
and the error of the command factory. -/
def stagingCmd (env : RunEnv) (pmConfig : String) (workingDirectory targetDir : Path) :
    List Event × Cmd × Option String :=
  if pmConfig = gradle then
    let targetGradlew := env.join workingDirectory (str "gradlew")
    let gradlew := if IsExist (env.stat targetGradlew) then targetGradlew else str "gradle"
    let groovyFilePath := env.join workingDirectory (str ".debrickedGroovyScript.groovy")
    ([Event.writeInitFile groovyFilePath,
      Event.makeGradleCmd workingDirectory gradlew groovyFilePath],
      env.MakeGradleCopyDependenciesCmd workingDirectory gradlew groovyFilePath)
  else
    ([Event.makeMvnCmd workingDirectory targetDir],
      env.MakeMvnCopyDependenciesCmd workingDirectory targetDir)

/-- The end of `Job.Run`, from `j.SendStatus("generating call graph")` on. -/
def analysis (env : RunEnv) (workingDirectory targetClasses targetDir : Path)
    (st : RunState) : RunState :=
  match runCallGraphWithSetup env workingDirectory targetClasses targetDir with
  | (evs, some err) =>
    ⟨st.errors.Critical err, st.events ++ Event.sendStatus generatingStatus :: evs⟩
  | (evs, none) => ⟨st.errors, st.events ++ Event.sendStatus generatingStatus :: evs⟩

/-- The block of `Job.Run` that copies the dependencies when the staging
directory does not exist; the flag is false when `Run` returns there, after a
failed staging. -/
def staging (env : RunEnv) (pmConfig : String) (workingDirectory targetDir : Path)
    (st : RunState) : RunState × Bool :=
  match stagingCmd env pmConfig workingDirectory targetDir with
  | (evs, _, some err) =>
    (⟨st.errors.Critical err,
      st.events ++ evs ++ [Event.sendStatus (copyingStatus targetDir)]⟩, false)
  | (evs, cmd, none) =>
    match env.output cmd with
    | some err =>
      (⟨st.errors.Critical err,
        st.events ++ evs ++ [Event.sendStatus (copyingStatus targetDir), Event.cmdOutput cmd]⟩,
        false)
    | none =>
      (⟨st.errors,
        st.events ++ evs ++ [Event.sendStatus (copyingStatus targetDir), Event.cmdOutput cmd]⟩,
        true)

/-- The method `Job.Run` of job.go, on a job whose collector and record are
`st`. -/
def Run (env : RunEnv) (j : Job) (st : RunState) : RunOutcome :=
  let workingDirectory := j.GetDir
  match j.GetFiles with
  | [] => RunOutcome.indexOutOfRange
  | targetClasses :: _ =>
    let targetDir := env.join workingDirectory (str ".debrickedTmpFolder")
    match j.config with
    | none => RunOutcome.nilConfig
    | some cfg =>
      let pmConfig := cfg.Kwargs "pm"
      if IsNotExist (env.stat targetDir) then
        match staging env pmConfig workingDirectory targetDir st with
        | (st1, false) => RunOutcome.done st1
        | (st1, true) =>
          RunOutcome.done (analysis env workingDirectory targetClasses targetDir st1)
      else RunOutcome.done (analysis env workingDirectory targetClasses targetDir st)

/-- The record of what a call of `Run` did, empty after a panic. -/
def RunOutcome.events : RunOutcome → List Event
  | RunOutcome.done st => st.events
  | _ => []

/-- The events of the analysis: the status "generating call graph", the
construction of the analysis command and its run. -/
def Event.isAnalysis : Event → Bool
  | Event.sendStatus msg => decide (msg = generatingStatus)
  | Event.makeCallGraphCmd _ _ _ _ => true
  | Event.runCommand _ => true
  | _ => false

/-- The events of the staging command: its construction, Maven or Gradle, and
its run. -/
def Event.isStaging : Event → Bool
  | Event.makeGradleCmd _ _ _ => true
  | Event.makeMvnCmd _ _ => true
  | Event.cmdOutput _ => true
  | _ => false

/-- The events that construct a staging command, Maven or Gradle. -/
def Event.isStagingMake : Event → Bool
  | Event.makeGradleCmd _ _ _ => true
  | Event.makeMvnCmd _ _ => true
  | _ => false

/-- The path join that puts a slash between its arguments, as `path.Join` does
for clean arguments. -/
def slashJoin (a b : Path) : Path := a ++ str "/" ++ b

/-- Surroundings in which every call succeeds: `exists` tells the files that
exist, and every command is built and run without error. -/
def okEnv (exists_ : Path → Bool) : RunEnv where
  join := slashJoin
  stat := fun f => if exists_ f then none else some OsError.notExist
  MakeGradleCopyDependenciesCmd := fun wd gradlew groovy =>
    ([gradlew, str "--init-script", groovy, wd], none)
  MakeMvnCopyDependenciesCmd := fun wd targetDir => ([str "mvn", wd, targetDir], none)
  output := fun _ => none
  openJar := none
  mkdirTemp := (str "/tmp/jar1", none)
  readAll := none
  writeFile := fun _ => none
  MakeCallGraphGenerationCmd := fun jar wd targetClasses targetDir =>
    ([str "java", jar, wd, targetClasses, targetDir], none)
  RunCommand := fun _ => none

/-- Surroundings without any file, in which the staging command is built and
fails when it is run. -/
def failingOutputEnv : RunEnv :=
  { okEnv (fun _ => false) with output := fun _ => some "exit status 1" }

/-- Surroundings without any file, in which the command factory fails to build
the staging command. -/
def failingFactoryEnv : RunEnv :=
  { okEnv (fun _ => false) with
    MakeMvnCopyDependenciesCmd := fun _ _ => ([], some "no mvn"),
    MakeGradleCopyDependenciesCmd := fun _ _ _ => ([], some "no gradle") }

/-- A configuration of the Java call graph with the given `pm` option. -/
def pmConfig (pm : String) : Config := ⟨"java", [], [("pm", pm)]⟩

/-- A finder with two Maven roots and one Gradle root that differ, and one
class directory beside each of the three. -/
def mavenGradleFinder : FinderFns :=
  constFinder [str "m/pom.xml", str "n/pom.xml"] [str "g/build.gradle"]
    [str "m/target", str "n/target", str "g/build"]

/-- The configuration of the strategy tests: no `pm` option. -/
def noPmConfig : Config := ⟨"java", ["arg1"], [("kwarg", "val")]⟩

end Java

namespace Callgraph

open Finder Java

/-! ## Scheduler -/

/-- The methods of `job.IJob` that the scheduler calls, on a job of type `J`:
`Run` gives the job after its run, `HasError` is `Errors().HasError()`. -/
structure JobOps (J : Type) where
  Run : J → J
  HasError : J → Bool

/-- A Go channel: the buffered values, the capacity, and whether it has been
closed. -/
structure Chan (α : Type) where
  buf : List α
  cap : Nat
  closed : Bool
  deriving DecidableEq, Repr

/-- The channel of `make(chan T, cap)`: open and empty. -/
def Chan.make (α : Type) (cap : Nat) : Chan α := ⟨[], cap, false⟩

/-- A send on a channel nobody receives from meanwhile: the value is buffered
when there is room, the send blocks (`none`) otherwise. -/
def Chan.send {α : Type} (c : Chan α) (a : α) : Option (Chan α) :=
  if c.buf.length < c.cap then some ⟨c.buf ++ [a], c.cap, c.closed⟩ else none

/-- What a receive does on a channel nobody sends to meanwhile. -/
inductive Recv (α : Type) where
  | value (a : α) (rest : Chan α)
  | closed
  | blocks

/-- A receive, as `for item := range ch` does it: the first buffered value;
on an empty channel the loop ends when the channel is closed and the receive
blocks when it is open. -/
def Chan.recv {α : Type} (c : Chan α) : Recv α :=
  match c.buf with
  | a :: rest => Recv.value a ⟨rest, c.cap, c.closed⟩
  | [] => if c.closed then Recv.closed else Recv.blocks

/-- The type `queueItem`: the job, a pointer, by its position in the list of
jobs, and the spinner by its number. -/
structure QueueItem where
  job : Nat
  spinner : Nat
  deriving DecidableEq, Repr

/-- What `Schedule` does, in the order it does it. -/
inductive SchedEvent where
  | spinnerStart
  | addSpinner (spinner : Nat)
  | goUpdateStatus (job : Nat)
  | run (job : Nat)
  | spinnerError (spinner : Nat)
  | spinnerComplete (spinner : Nat)
  | spinnerStop
  deriving DecidableEq, Repr

/-- The jobs that the slice `jobs` points to, and the record of what `Schedule`
did. -/
structure SchedState (J : Type) where
  jobs : List J
  events : List SchedEvent
  deriving DecidableEq, Repr

/-- How a call of `Schedule` ends: it returns a generation (its jobs) and an
error, or it blocks forever on a channel; `unfinished` is the end of a loop
that was cut short by the bound on its iterations. -/
inductive SchedOutcome (J : Type) where
  | returned (generation : List J) (err : Option String)
  | blocked (st : SchedState J)
  | unfinished (st : SchedState J)
  deriving DecidableEq, Repr

/-- The call `item.job.Run()` on the job at position `i`. -/
def runAt {J : Type} (ops : JobOps J) : Nat → List J → List J
  | _, [] => []
  | 0, j :: rest => ops.Run j :: rest
  | i + 1, j :: rest => j :: runAt ops i rest

/-- The first loop of `Schedule`, for the jobs from position `i` on: a spinner
is added and the item is sent to the queue; the queue is `none` when a send
blocks. -/
def enqueueLoop {J : Type} : List J → Nat → Chan QueueItem → List SchedEvent →
    Option (Chan QueueItem) × List SchedEvent
  | [], _, queue, events => (some queue, events)
  | _ :: rest, i, queue, events =>
    match queue.send ⟨i, i⟩ with
    | none => (none, events ++ [SchedEvent.addSpinner i])
    | some queue1 => enqueueLoop rest (i + 1) queue1 (events ++ [SchedEvent.addSpinner i])

/-- The method `finish`: the spinner of the item fails or completes. -/
def finish {J : Type} (ops : JobOps J) (item : QueueItem) (jobs : List J) : SchedEvent :=
  match jobs.get? item.job with
  | some j => if ops.HasError j then SchedEvent.spinnerError item.spinner
      else SchedEvent.spinnerComplete item.spinner
  | none => SchedEvent.spinnerComplete item.spinner

/-- The body of the loop `for item := range scheduler.queue`. -/
def loopBody {J : Type} (ops : JobOps J) (item : QueueItem) (st : SchedState J) :
    SchedState J :=
  ⟨runAt ops item.job st.jobs,
    st.events ++ [SchedEvent.goUpdateStatus item.job, SchedEvent.run item.job,
      finish ops item (runAt ops item.job st.jobs)]⟩

/-- How the loop over the queue ends. -/
inductive LoopEnd where
  | closed
  | blocks
  | cut
  deriving DecidableEq, Repr

/-- The loop `for item := range scheduler.queue`, for at most `n` receives. -/
def rangeLoop {J : Type} (ops : JobOps J) :
    Nat → Chan QueueItem → SchedState J → LoopEnd × SchedState J
  | 0, _, st => (LoopEnd.cut, st)
  | n + 1, queue, st =>
    match queue.recv with
    | Recv.value item queue1 => rangeLoop ops n queue1 (loopBody ops item st)
    | Recv.closed => (LoopEnd.closed, st)
    | Recv.blocks => (LoopEnd.blocks, st)

/-- The method `Scheduler.Schedule` of scheduler.go.  Nothing but this method
sends to the queue or closes it; the wait group is added to and never waited
for. -/
def Schedule {J : Type} (ops : JobOps J) (jobs : List J) : SchedOutcome J :=
  match enqueueLoop jobs 0 (Chan.make QueueItem jobs.length) [SchedEvent.spinnerStart] with
  | (none, events) => SchedOutcome.blocked ⟨jobs, events⟩
  | (some queue, events) =>
    match rangeLoop ops (jobs.length + 1) queue ⟨jobs, events⟩ with
    | (LoopEnd.closed, st) => SchedOutcome.returned st.jobs none
    | (LoopEnd.blocks, st) => SchedOutcome.blocked st
    | (LoopEnd.cut, st) => SchedOutcome.unfinished st

/-- The positions of the jobs that `Run` was called on, in the order of the
calls. -/
def runCalls : List SchedEvent → List Nat
  | [] => []
  | SchedEvent.run i :: rest => i :: runCalls rest
  | _ :: rest => runCalls rest

/-- The state of a goroutine. -/
inductive Goroutine where
  | running
  | blockedOnReceive
  | exited
  deriving DecidableEq, Repr

/-- A goroutine of `updateStatus`: its state and the message of its spinner. -/
structure Consumer where
  state : Goroutine
  spinnerMessage : Option Path
  deriving DecidableEq, Repr

/-- The method `updateStatus`, for at most `n` iterations of its loop: `pending`
are the messages that the job sends, `closed` tells whether the status channel
is closed after them (a receive from a closed channel gives the empty string
at once). -/
def updateStatus (closed : Bool) : Nat → List Path → Option Path → Consumer
  | 0, _, msg => ⟨Goroutine.running, msg⟩
  | n + 1, [], msg =>
    if closed then updateStatus closed n [] (some [])
    else ⟨Goroutine.blockedOnReceive, msg⟩
  | n + 1, m :: rest, _ => updateStatus closed n rest (some m)

/-- Modelled from the spec: the job mock `testdata.NewJobMock` of the scheduler
tests is not among the sources; its `Run` records the error set by `SetErr`,
if any, as critical. -/
structure JobMock where
  dir : Path
  files : List Path
  err : Option String
  errs : Errors
  deriving DecidableEq, Repr

/-- The constructor `NewJobMock`. -/
def NewJobMock (dir : Path) (files : List Path) : JobMock := ⟨dir, files, none, ⟨[]⟩⟩

/-- The method `SetErr` of the job mock. -/
def JobMock.SetErr (j : JobMock) (err : String) : JobMock := { j with err := some err }

/-- The method `Run` of the job mock. -/
def JobMock.Run (j : JobMock) : JobMock :=
  match j.err with
  | some e => { j with errs := j.errs.Critical e }
  | none => j

/-- The job mock as the scheduler sees it. -/
def mockOps : JobOps JobMock := ⟨JobMock.Run, fun j => j.errs.HasError⟩

/-! ## Generator -/

/-- The collaborators of `Generator.Generate`: the strategy factory, the
strategies and the scheduler, all interface values. -/
structure GenEnv (C S J : Type) where
  Make : C → List Path → Except String S
  Invoke : S → List J × Option String
  Schedule : List J → SchedOutcome J

/-- The loop of `Generate` over the configurations: the jobs collected, or the
error of the `return nil, err` after a failed `Invoke`. -/
def generateLoop {C S J : Type} (env : GenEnv C S J) (files : List Path) :
    List C → List J → Except String (List J)
  | [], jobs => Except.ok jobs
  | config :: rest, jobs =>
    match env.Make config files with
    | Except.error _ => generateLoop env files rest jobs
    | Except.ok s =>
      match env.Invoke s with
      | (_, some err) => Except.error err
      | (newJobs, none) => generateLoop env files rest (jobs ++ newJobs)

/-- How a call of `Generate` ends. -/
inductive GenOutcome (J : Type) where
  | returned (generation : Option (List J)) (err : Option String)
  | notReturned
  deriving DecidableEq, Repr

/-- What a call of `Generate` does: the jobs it passes to the scheduler (`none`
when the scheduler is not called), whether it reaches the send on `status`, and
how it ends. -/
structure GenResult (J : Type) where
  scheduled : Option (List J)
  statusSent : Bool
  outcome : GenOutcome J

/-- The method `Generator.Generate` of generator.go, on the files that
`finder.FindFiles` found. -/
def Generate {C S J : Type} (env : GenEnv C S J) (files : List Path) (configs : List C) :
    GenResult J :=
  match generateLoop env files configs [] with
  | Except.error err => ⟨none, false, GenOutcome.returned none (some err)⟩
  | Except.ok jobs =>
    match env.Schedule jobs with
    | SchedOutcome.returned generation err =>
      ⟨some jobs, true, GenOutcome.returned (some generation) err⟩
    | _ => ⟨some jobs, false, GenOutcome.notReturned⟩

/-- The jobs of one configuration: those of its strategy, none when the factory
fails. -/
def jobsOfConfig {C S J : Type} (env : GenEnv C S J) (files : List Path) (config : C) :
    List J :=
  match env.Make config files with
  | Except.error _ => []
  | Except.ok s => (env.Invoke s).1

/-- The configurations whose strategy is made and fails in `Invoke`. -/
def invokeFails {C S J : Type} (env : GenEnv C S J) (files : List Path) (config : C) :
    Option String :=
  match env.Make config files with
  | Except.error _ => none
  | Except.ok s => (env.Invoke s).2

/-- The scheduler mock of the tests, `SchedulerMock` without `JobsMock`: it runs
the jobs and returns them with its error. -/
def schedulerMock {J : Type} (ops : JobOps J) (err : Option String) (jobs : List J) :
    SchedOutcome J :=
  SchedOutcome.returned (jobs.map ops.Run) err

/-- Collaborators for two configurations, numbered 0 and 1, with jobs that are
numbers: the factory makes a strategy for each, `Invoke` fails for the first
and returns the job 7 for the second. -/
def failingInvokeEnv : GenEnv Nat Nat Nat where
  Make := fun config _ => Except.ok config
  Invoke := fun s => if s = 0 then ([], some "invoke failed") else ([7], none)
  Schedule := schedulerMock ⟨id, fun _ => false⟩ none

/-- Collaborators for three configurations, numbered 0, 1 and 2: the factory
fails for the second, and `Invoke` returns the jobs 10 and 11 for the first
and the job 30 for the third. -/
def failingMakeEnv : GenEnv Nat Nat Nat where
  Make := fun config _ => if config = 1 then Except.error "no strategy" else Except.ok config
  Invoke := fun s => if s = 0 then ([10, 11], none) else ([30], none)
  Schedule := schedulerMock ⟨id, fun _ => false⟩ none

/-- The case of the `select` of `GenerateWithTimer` that is taken: the receive
from `status`, or the receive from the timer. -/
inductive SelectCase where
  | status
  | timeout
  deriving DecidableEq, Repr

/-- How a call of `GenerateWithTimer` ends: it returns an error (nil or not), or
its goroutine is ended by `runtime.Goexit()` and nothing is returned. -/
inductive TimerOutcome where
  | returned (err : Option String)
  | goexit
  deriving DecidableEq, Repr

/-- The method `Generator.GenerateWithTimer` of generator.go, after it started
`Generate`: in the timeout case `runtime.Goexit()` stands before the `return`
of the error. -/
def GenerateWithTimer (taken : SelectCase) : TimerOutcome :=
  match taken with
  | SelectCase.status => TimerOutcome.returned none
  | SelectCase.timeout => TimerOutcome.goexit

end Callgraph

namespace Finder
open Java

/-! ## The character loop computes the specification's match length -/

theorem getLast?_cons_of_ne_nil {a : Nat} {l : Path} (h : l ≠ []) :
    (a :: l).getLast? = l.getLast? := by
  cases l with
  | nil => exact absurd rfl h
  | cons b t => simp [List.getLast?_cons_cons]

/-- What the character loop returns, started with `longest ≤ matchLength`: a
bound for every common prefix ending with the separator, reached by one of them
unless the loop returns the value it was started with. -/
theorem sepMatchLoop_spec (sep : Nat) (file : Path) :
    ∀ (dir : Path) (ml longest : Nat), longest ≤ ml →
      longest ≤ sepMatchLoop sep file dir ml longest ∧
      (∀ p : Path, p <+: dir → p <+: file → p.getLast? = some sep →
        ml + p.length ≤ sepMatchLoop sep file dir ml longest) ∧
      (sepMatchLoop sep file dir ml longest = longest ∨
        ∃ p : Path, p <+: dir ∧ p <+: file ∧ p.getLast? = some sep ∧
          sepMatchLoop sep file dir ml longest = ml + p.length) := by
  induction file with
  | nil =>
    intro dir ml longest _
    refine ⟨by simp [sepMatchLoop], ?_, Or.inl (by simp [sepMatchLoop])⟩
    intro p _ hpf hl
    have : p = [] := List.prefix_nil.mp hpf
    subst this
    simp at hl
  | cons fc file ih =>
    intro dir ml longest hle
    cases dir with
    | nil =>
      refine ⟨by simp [sepMatchLoop], ?_, Or.inl (by simp [sepMatchLoop])⟩
      intro p hpd _ hl
      have : p = [] := List.prefix_nil.mp hpd
      subst this
      simp at hl
    | cons dc dir =>
      by_cases hc : fc = dc
      · subst hc
        have hstep : sepMatchLoop sep (fc :: file) (fc :: dir) ml longest =
            sepMatchLoop sep file dir (ml + 1) (if sep = fc then ml + 1 else longest) := by
          simp [sepMatchLoop]
        rw [hstep]
        have hle2 : (if sep = fc then ml + 1 else longest) ≤ ml + 1 := by
          split <;> omega
        obtain ⟨h1, h2, h3⟩ := ih dir (ml + 1) _ hle2
        refine ⟨?_, ?_, ?_⟩
        · have : longest ≤ (if sep = fc then ml + 1 else longest) := by
            split <;> omega
          omega
        · intro p hpd hpf hl
          cases p with
          | nil => simp at hl
          | cons a p =>
            rw [List.cons_prefix_cons] at hpd hpf
            by_cases hp : p = []
            · subst hp
              simp at hl
              have h4 : sep = fc := by rw [← hl]; exact hpf.1
              simp only [h4, if_true] at h1
              simp only [List.length_singleton]
              simpa [h4] using h1
            · rw [getLast?_cons_of_ne_nil hp] at hl
              have := h2 p hpd.2 hpf.2 hl
              simp only [List.length_cons]
              omega
        · rcases h3 with h3 | ⟨p, hpd, hpf, hl, hr⟩
          · by_cases hs : sep = fc
            · right
              refine ⟨[fc], ?_, ?_, ?_, ?_⟩
              · simp
              · simp
              · simp [hs]
              · rw [h3]; simp [hs]
            · left
              rw [h3]; simp [hs]
          · right
            have hp : p ≠ [] := by
              intro h; subst h; simp at hl
            refine ⟨fc :: p, ?_, ?_, ?_, ?_⟩
            · simpa [List.cons_prefix_cons] using hpd
            · simpa [List.cons_prefix_cons] using hpf
            · rw [getLast?_cons_of_ne_nil hp]; exact hl
            · rw [hr]; simp only [List.length_cons]; omega
      · refine ⟨by simp [sepMatchLoop, hc], ?_, Or.inl (by simp [sepMatchLoop, hc])⟩
        intro p hpd hpf hl
        cases p with
        | nil => simp at hl
        | cons a p =>
          rw [List.cons_prefix_cons] at hpd hpf
          exact absurd (hpf.1.symm.trans hpd.1) hc

theorem le_foldr_max_of_mem {n : Nat} {l : List Nat} (h : n ∈ l) :
    n ≤ l.foldr max 0 := by
  induction l with
  | nil => simp at h
  | cons a t ih =>
    simp only [List.foldr_cons]
    rcases List.mem_cons.mp h with h | h
    · subst h; exact Nat.le_max_left _ _
    · exact Nat.le_trans (ih h) (Nat.le_max_right _ _)

theorem foldr_max_eq_zero_or_mem (l : List Nat) :
    l.foldr max 0 = 0 ∨ l.foldr max 0 ∈ l := by
  induction l with
  | nil => left; rfl
  | cons a t ih =>
    simp only [List.foldr_cons]
    rcases Nat.le_total a (t.foldr max 0) with h | h
    · rw [Nat.max_eq_right h]
      rcases ih with ih | ih
      · left; exact ih
      · right; exact List.mem_cons_of_mem _ ih
    · rw [Nat.max_eq_left h]
      right; exact List.mem_cons_self _ _

/-- Every common prefix of `d` and `f` that ends with the separator is at most
`sepMatch sep d f` long. -/
theorem le_sepMatch (sep : Nat) (d f p : Path) (hd : p <+: d) (hf : p <+: f)
    (hl : p.getLast? = some sep) : p.length ≤ sepMatch sep d f := by
  unfold sepMatch
  apply le_foldr_max_of_mem
  rw [List.mem_filter]
  have h1 := hd.length_le
  have h2 := hf.length_le
  have e1 : d.take p.length = p := (List.prefix_iff_eq_take.mp hd).symm
  have e2 : f.take p.length = p := (List.prefix_iff_eq_take.mp hf).symm
  refine ⟨?_, ?_⟩
  · rw [List.mem_range]
    have := Nat.le_min.mpr ⟨h1, h2⟩
    omega
  · simp [e1, e2, hl]

/-- The value `sepMatch sep d f` is 0 or the length of a common prefix of `d`
and `f` that ends with the separator. -/
theorem sepMatch_attained (sep : Nat) (d f : Path) :
    sepMatch sep d f = 0 ∨
      ∃ p : Path, p <+: d ∧ p <+: f ∧ p.getLast? = some sep ∧
        sepMatch sep d f = p.length := by
  unfold sepMatch
  rcases foldr_max_eq_zero_or_mem ((List.range (min d.length f.length + 1)).filter
    (fun n => decide (d.take n = f.take n ∧ (d.take n).getLast? = some sep))) with h | h
  · left; exact h
  · right
    rw [List.mem_filter, List.mem_range] at h
    obtain ⟨hlt, hdec⟩ := h
    have hdec := of_decide_eq_true hdec
    have hmin : List.foldr max 0 ((List.range (min d.length f.length + 1)).filter
        (fun n => decide (d.take n = f.take n ∧ (d.take n).getLast? = some sep))) ≤
        min d.length f.length := by omega
    refine ⟨d.take _, List.take_prefix _ _, ?_, hdec.2, ?_⟩
    · rw [hdec.1]; exact List.take_prefix _ _
    · rw [List.length_take]
      have := Nat.le_min.mp hmin
      omega

/-- The character loop of `MapFilesToDir` computes `sepMatch`. -/
theorem sepMatchLoop_eq_sepMatch (sep : Nat) (file dir : Path) :
    sepMatchLoop sep file dir 0 0 = sepMatch sep dir file := by
  obtain ⟨_, h2, h3⟩ := sepMatchLoop_spec sep file dir 0 0 (Nat.le_refl 0)
  apply Nat.le_antisymm
  · rcases h3 with h3 | ⟨p, hpd, hpf, hl, hr⟩
    · omega
    · have := le_sepMatch sep dir file p hpd hpf hl
      omega
  · rcases sepMatch_attained sep dir file with h | ⟨p, hpd, hpf, hl, hr⟩
    · omega
    · have := h2 p hpd hpf hl
      omega

/-! ## The loop over the directories chooses the first longest match -/

/-- What the loop over `dirs` returns: the state it was started with when no
directory beats it, and otherwise the first directory of the longest match. -/
theorem dirLoop_spec (sep : Nat) (file : Path) :
    ∀ (dirs : List Path) (st : DirScan),
      (dirLoop sep file dirs st = st ∧
        ∀ d ∈ dirs, sepMatchLoop sep file d 0 0 ≤ st.longestMatchLength) ∨
      ((dirLoop sep file dirs st).matched = true ∧
        ∃ pre d post, dirs = pre ++ d :: post ∧
          (dirLoop sep file dirs st).matchingDir = d ∧
          (dirLoop sep file dirs st).longestMatchLength = sepMatchLoop sep file d 0 0 ∧
          st.longestMatchLength < sepMatchLoop sep file d 0 0 ∧
          (∀ x ∈ pre, sepMatchLoop sep file x 0 0 < sepMatchLoop sep file d 0 0) ∧
          (∀ x ∈ post, sepMatchLoop sep file x 0 0 ≤ sepMatchLoop sep file d 0 0)) := by
  intro dirs
  induction dirs with
  | nil => intro st; left; exact ⟨rfl, by simp⟩
  | cons dir rest ih =>
    intro st
    by_cases hgt : sepMatchLoop sep file dir 0 0 > st.longestMatchLength
    · have hstep : dirLoop sep file (dir :: rest) st =
          dirLoop sep file rest ⟨sepMatchLoop sep file dir 0 0, dir, true⟩ := by
        simp [dirLoop, hgt]
      rw [hstep]
      right
      rcases ih ⟨sepMatchLoop sep file dir 0 0, dir, true⟩ with ⟨he, hall⟩ | ⟨hm, pre, d, post, hd, h1, h2, h3, h4, h5⟩
      · rw [he]
        exact ⟨rfl, [], dir, rest, rfl, rfl, rfl, hgt, by simp, hall⟩
      · refine ⟨hm, dir :: pre, d, post, by simp [hd], h1, h2, ?_, ?_, h5⟩
        · simp only at h3; omega
        · intro x hx
          rcases List.mem_cons.mp hx with hx | hx
          · subst hx; exact h3
          · exact h4 x hx
    · have hstep : dirLoop sep file (dir :: rest) st = dirLoop sep file rest st := by
        simp [dirLoop, hgt]
      rw [hstep]
      rcases ih st with ⟨he, hall⟩ | ⟨hm, pre, d, post, hd, h1, h2, h3, h4, h5⟩
      · left
        refine ⟨he, ?_⟩
        intro x hx
        rcases List.mem_cons.mp hx with hx | hx
        · subst hx; omega
        · exact hall x hx
      · right
        refine ⟨hm, dir :: pre, d, post, by simp [hd], h1, h2, h3, ?_, h5⟩
        intro x hx
        rcases List.mem_cons.mp hx with hx | hx
        · subst hx; omega
        · exact h4 x hx

/-- No directory is chosen exactly when no directory has a positive match. -/
theorem ownerDir_eq_none_iff (sep : Nat) (dirs : List Path) (file : Path) :
    ownerDir sep dirs file = none ↔ ∀ d ∈ dirs, sepMatch sep d file = 0 := by
  unfold ownerDir
  rcases dirLoop_spec sep file dirs ⟨0, [], false⟩ with ⟨he, hall⟩ | ⟨hm, pre, d, post, hd, _, _, h3, _, _⟩
  · rw [he]
    simp only [Bool.false_eq_true, if_false, true_iff]
    intro d hd
    have := hall d hd
    rw [sepMatchLoop_eq_sepMatch] at this
    simpa using this
  · rw [hm]
    simp only [if_true]
    constructor
    · intro h; exact absurd h (by simp)
    · intro hall
      have : sepMatch sep d file = 0 := hall d (by simp [hd])
      rw [sepMatchLoop_eq_sepMatch] at h3
      simp only at h3
      omega

/-- The chosen directory is the first one of the longest match, which is
positive. -/
theorem ownerDir_eq_some (sep : Nat) (dirs : List Path) (file d : Path)
    (h : ownerDir sep dirs file = some d) :
    ∃ pre post, dirs = pre ++ d :: post ∧ 0 < sepMatch sep d file ∧
      (∀ x ∈ pre, sepMatch sep x file < sepMatch sep d file) ∧
      (∀ x ∈ post, sepMatch sep x file ≤ sepMatch sep d file) := by
  unfold ownerDir at h
  rcases dirLoop_spec sep file dirs ⟨0, [], false⟩ with ⟨he, _⟩ | ⟨hm, pre, d2, post, hd, h1, _, h3, h4, h5⟩
  · rw [he] at h; simp at h
  · rw [hm, h1] at h
    simp only [if_true, Option.some.injEq] at h
    subst h
    simp only [sepMatchLoop_eq_sepMatch] at h3 h4 h5
    exact ⟨pre, post, hd, by omega, h4, h5⟩

/-! ## Lookup and assignment in a map -/

theorem mapGet_mapSet_self (m : DirMap) (k : Path) (v : List Path) :
    mapGet (mapSet m k v) k = some v := by
  induction m with
  | nil => simp [mapSet, mapGet]
  | cons e m ih =>
    obtain ⟨k1, v1⟩ := e
    by_cases h : k1 = k
    · simp [mapSet, mapGet, h]
    · simp [mapSet, mapGet, h, ih]

theorem mapGet_mapSet_of_ne (m : DirMap) (k k2 : Path) (v : List Path) (hne : k ≠ k2) :
    mapGet (mapSet m k v) k2 = mapGet m k2 := by
  induction m with
  | nil => simp [mapSet, mapGet, hne]
  | cons e m ih =>
    obtain ⟨k1, v1⟩ := e
    by_cases h : k1 = k
    · subst h; simp [mapSet, mapGet, hne]
    · by_cases h2 : k1 = k2
      · subst h2; simp [mapSet, mapGet, h]
      · simp [mapSet, mapGet, h, h2, ih]

theorem mapGet_eq_none_iff (m : DirMap) (k : Path) :
    mapGet m k = none ↔ k ∉ m.map Prod.fst := by
  induction m with
  | nil => simp [mapGet]
  | cons e m ih =>
    obtain ⟨k1, v1⟩ := e
    by_cases h : k1 = k
    · simp [mapGet, h]
    · have h2 : ¬ k = k1 := fun h3 => h h3.symm
      simp [mapGet, h, h2, ih]

theorem keys_mapSet (m : DirMap) (k : Path) (v : List Path) :
    (mapSet m k v).map Prod.fst =
      if k ∈ m.map Prod.fst then m.map Prod.fst else m.map Prod.fst ++ [k] := by
  induction m with
  | nil => simp [mapSet]
  | cons e m ih =>
    obtain ⟨k1, v1⟩ := e
    by_cases h : k1 = k
    · subst h; simp [mapSet]
    · have h2 : ¬ k = k1 := fun h3 => h h3.symm
      simp only [mapSet, h, if_false, List.map_cons, ih, List.mem_cons, h2, false_or]
      split <;> simp

theorem nodup_keys_mapSet (m : DirMap) (k : Path) (v : List Path)
    (h : (m.map Prod.fst).Nodup) : ((mapSet m k v).map Prod.fst).Nodup := by
  rw [keys_mapSet]
  split
  · exact h
  · rename_i hk
    rw [List.nodup_append]
    refine ⟨h, List.nodup_singleton _, ?_⟩
    intro a ha hb
    simp only [List.mem_singleton] at hb
    subst hb
    exact hk ha

theorem mem_iff_mapGet (m : DirMap) (h : (m.map Prod.fst).Nodup) (k : Path)
    (v : List Path) : (k, v) ∈ m ↔ mapGet m k = some v := by
  induction m with
  | nil => simp [mapGet]
  | cons e m ih =>
    obtain ⟨k1, v1⟩ := e
    simp only [List.map_cons, List.nodup_cons] at h
    by_cases hk : k1 = k
    · subst hk
      simp only [mapGet, if_true, Option.some.injEq, List.mem_cons, Prod.mk.injEq, true_and]
      constructor
      · rintro (h1 | h1)
        · exact h1.symm
        · exact absurd (List.mem_map_of_mem Prod.fst h1) h.1
      · intro h1; left; exact h1.symm
    · have h2 : ¬ k = k1 := fun h3 => hk h3.symm
      simp [mapGet, hk, h2, ih h.2]

theorem totalEntries_mapSet (m : DirMap) (k : Path) (v : List Path) :
    totalEntries (mapSet m k v) + ((mapGet m k).getD []).length =
      totalEntries m + v.length := by
  induction m with
  | nil => simp [mapSet, mapGet, totalEntries]
  | cons e m ih =>
    obtain ⟨k1, v1⟩ := e
    by_cases h : k1 = k
    · simp [mapSet, mapGet, totalEntries, h]; omega
    · simp only [mapSet, mapGet, h, if_false, totalEntries, List.map_cons, List.sum_cons] at ih ⊢
      omega

/-! ## The loop over the files -/

theorem fileLoop_cons (sep : Nat) (dirs : List Path) (file : Path) (rest : List Path)
    (m : DirMap) :
    fileLoop sep dirs (file :: rest) m =
      match ownerDir sep dirs file with
      | none => fileLoop sep dirs rest m
      | some d => fileLoop sep dirs rest (addFile m d file) := by
  unfold ownerDir
  by_cases h : (dirLoop sep file dirs ⟨0, [], false⟩).matched = true
  · simp [fileLoop, h, addFile]
  · simp [fileLoop, h]

theorem mapGet_addFile_self (m : DirMap) (d file : Path) :
    mapGet (addFile m d file) d = some ((mapGet m d).getD [] ++ [file]) := by
  unfold addFile
  rw [mapGet_mapSet_self]
  cases h : mapGet m d with
  | none => simp [mapGet_mapSet_self]
  | some v => simp [h]

theorem mapGet_addFile_of_ne (m : DirMap) (d k file : Path) (hne : d ≠ k) :
    mapGet (addFile m d file) k = mapGet m k := by
  unfold addFile
  rw [mapGet_mapSet_of_ne _ _ _ _ hne]
  split
  · exact mapGet_mapSet_of_ne _ _ _ _ hne
  · rfl

theorem nodup_keys_addFile (m : DirMap) (d file : Path)
    (h : (m.map Prod.fst).Nodup) : ((addFile m d file).map Prod.fst).Nodup := by
  unfold addFile
  apply nodup_keys_mapSet
  split
  · exact nodup_keys_mapSet _ _ _ h
  · exact h

theorem totalEntries_addFile (m : DirMap) (d file : Path) :
    totalEntries (addFile m d file) = totalEntries m + 1 := by
  unfold addFile
  cases h : mapGet m d with
  | none =>
    have h1 := totalEntries_mapSet m d []
    have h2 := totalEntries_mapSet (mapSet m d []) d ([] ++ [file])
    rw [mapGet_mapSet_self] at h2
    rw [h] at h1
    simp at h1 h2 ⊢
    rw [mapGet_mapSet_self]
    simp
    omega
  | some v =>
    have h1 := totalEntries_mapSet m d (v ++ [file])
    rw [h] at h1
    simp at h1 ⊢
    rw [h]
    simp
    omega

theorem filesOf_append_singleton (sep : Nat) (dirs done : List Path) (file k : Path) :
    filesOf sep dirs (done ++ [file]) k =
      if ownerDir sep dirs file = some k then filesOf sep dirs done k ++ [file]
      else filesOf sep dirs done k := by
  unfold filesOf
  rw [List.filter_append]
  by_cases h : ownerDir sep dirs file = some k
  · simp [List.filter_cons, h]
  · simp [List.filter_cons, h]

/-- The invariant holds for the empty map before any file. -/
theorem mapInv_nil (sep : Nat) (dirs : List Path) : MapInv sep dirs [] [] := by
  refine ⟨by simp, ?_⟩
  intro k
  simp [filesOf, mapGet]

/-- One iteration of the loop over the files keeps the invariant. -/
theorem mapInv_step (sep : Nat) (dirs : List Path) (m : DirMap) (done : List Path)
    (file : Path) (h : MapInv sep dirs m done) :
    MapInv sep dirs
      (match ownerDir sep dirs file with
        | none => m
        | some d => addFile m d file) (done ++ [file]) := by
  obtain ⟨hnd, hget⟩ := h
  cases ho : ownerDir sep dirs file with
  | none =>
    refine ⟨hnd, ?_⟩
    intro k
    rw [filesOf_append_singleton, ho]
    simpa using hget k
  | some d =>
    refine ⟨nodup_keys_addFile m d file hnd, ?_⟩
    intro k
    rw [filesOf_append_singleton, ho]
    by_cases hk : d = k
    · subst hk
      rw [mapGet_addFile_self, hget d]
      by_cases he : filesOf sep dirs done d = []
      · simp [he]
      · simp [he]
    · rw [mapGet_addFile_of_ne m d k file hk]
      have : ¬ (some d = some k) := fun h => hk (Option.some.inj h)
      simpa [this] using hget k

/-- The loop over the files keeps the invariant. -/
theorem fileLoop_inv (sep : Nat) (dirs : List Path) :
    ∀ (rest done : List Path) (m : DirMap), MapInv sep dirs m done →
      MapInv sep dirs (fileLoop sep dirs rest m) (done ++ rest) := by
  intro rest
  induction rest with
  | nil => intro done m h; simpa [fileLoop] using h
  | cons file rest ih =>
    intro done m h
    have hs := mapInv_step sep dirs m done file h
    rw [fileLoop_cons]
    have e : done ++ file :: rest = (done ++ [file]) ++ rest := by simp
    rw [e]
    cases ho : ownerDir sep dirs file with
    | none =>
      rw [ho] at hs
      exact ih _ _ hs
    | some d =>
      rw [ho] at hs
      exact ih _ _ hs

theorem totalEntries_fileLoop (sep : Nat) (dirs : List Path) :
    ∀ (rest : List Path) (m : DirMap),
      totalEntries (fileLoop sep dirs rest m) ≤ totalEntries m + rest.length := by
  intro rest
  induction rest with
  | nil => intro m; simp [fileLoop]
  | cons file rest ih =>
    intro m
    rw [fileLoop_cons]
    cases ho : ownerDir sep dirs file with
    | none =>
      have := ih m
      simp only [List.length_cons]
      omega
    | some d =>
      have := ih (addFile m d file)
      rw [totalEntries_addFile] at this
      simp only [List.length_cons]
      omega

/-- The invariant holds for the result of `MapFilesToDir`. -/
theorem mapInv_MapFilesToDir (sep : Nat) (dirs files : List Path) :
    MapInv sep dirs (MapFilesToDir sep dirs files) files := by
  unfold MapFilesToDir
  by_cases h : dirs.length = 0
  · have hd : dirs = [] := List.length_eq_zero.mp h
    subst hd
    refine ⟨by simp, ?_⟩
    intro k
    have : filesOf sep [] files k = [] := by
      simp [filesOf, ownerDir, dirLoop]
    simp [this, mapGet]
  · simp only [h, if_false]
    simpa using fileLoop_inv sep dirs files [] [] (mapInv_nil sep dirs)

theorem nodup_keys_MapFilesToDir (sep : Nat) (dirs files : List Path) :
    ((MapFilesToDir sep dirs files).map Prod.fst).Nodup :=
  (mapInv_MapFilesToDir sep dirs files).1

/-- The entries of the result of `MapFilesToDir`: a key with the non-empty list
of the files it was chosen for. -/
theorem mem_MapFilesToDir_iff (sep : Nat) (dirs files : List Path) (k : Path)
    (v : List Path) :
    (k, v) ∈ MapFilesToDir sep dirs files ↔
      v = filesOf sep dirs files k ∧ v ≠ [] := by
  obtain ⟨hnd, hget⟩ := mapInv_MapFilesToDir sep dirs files
  rw [mem_iff_mapGet _ hnd, hget k]
  by_cases he : filesOf sep dirs files k = []
  · simp only [he, if_true]
    constructor
    · intro h; exact absurd h (by simp)
    · rintro ⟨h1, h2⟩; exact absurd h1 h2
  · simp only [he, if_false, Option.some.injEq]
    constructor
    · intro h; subst h; exact ⟨rfl, he⟩
    · rintro ⟨h1, _⟩; exact h1.symm

/-- A key lists a file exactly when the file is among the files and the key is
the directory chosen for it. -/
theorem lists_iff (sep : Nat) (dirs files : List Path) (d f : Path) :
    Lists (MapFilesToDir sep dirs files) d f ↔
      f ∈ files ∧ ownerDir sep dirs f = some d := by
  unfold Lists
  constructor
  · rintro ⟨fs, hmem, hf⟩
    rw [mem_MapFilesToDir_iff] at hmem
    rw [hmem.1] at hf
    unfold filesOf at hf
    rw [List.mem_filter] at hf
    exact ⟨hf.1, of_decide_eq_true hf.2⟩
  · rintro ⟨hf, ho⟩
    have hin : f ∈ filesOf sep dirs files d := by
      unfold filesOf
      rw [List.mem_filter]
      exact ⟨hf, decide_eq_true ho⟩
    refine ⟨filesOf sep dirs files d, ?_, hin⟩
    rw [mem_MapFilesToDir_iff]
    exact ⟨rfl, List.ne_nil_of_mem hin⟩

/-! ## GCDPath -/

theorem shortestLoop_spec :
    ∀ (rest : List Path) (shortest : Path),
      shortestLoop shortest rest ∈ shortest :: rest ∧
      ∀ p ∈ shortest :: rest, (shortestLoop shortest rest).length ≤ p.length := by
  intro rest
  induction rest with
  | nil => intro shortest; simp [shortestLoop]
  | cons path rest ih =>
    intro shortest
    by_cases h : path.length < shortest.length
    · have hstep : shortestLoop shortest (path :: rest) = shortestLoop path rest := by
        simp [shortestLoop, h]
      rw [hstep]
      obtain ⟨h1, h2⟩ := ih path
      refine ⟨List.mem_cons_of_mem _ h1, ?_⟩
      intro p hp
      rcases List.mem_cons.mp hp with hp | hp
      · subst hp
        have := h2 path (List.mem_cons_self _ _)
        omega
      · exact h2 p hp
    · have hstep : shortestLoop shortest (path :: rest) = shortestLoop shortest rest := by
        simp [shortestLoop, h]
      rw [hstep]
      obtain ⟨h1, h2⟩ := ih shortest
      refine ⟨?_, ?_⟩
      · rcases List.mem_cons.mp h1 with h1 | h1
        · rw [h1]; exact List.mem_cons_self _ _
        · exact List.mem_cons_of_mem _ (List.mem_cons_of_mem _ h1)
      · intro p hp
        rcases List.mem_cons.mp hp with hp | hp
        · subst hp; exact h2 _ (List.mem_cons_self _ _)
        · rcases List.mem_cons.mp hp with hp | hp
          · subst hp
            have := h2 shortest (List.mem_cons_self _ _)
            omega
          · exact h2 p (List.mem_cons_of_mem _ hp)

theorem shortestPath_mem (paths : List Path) (h : paths ≠ []) :
    shortestPath paths ∈ paths := by
  cases paths with
  | nil => exact absurd rfl h
  | cons path rest => exact (shortestLoop_spec rest path).1

theorem allHavePrefix_iff (dirpath : Path) (paths : List Path) :
    allHavePrefix dirpath paths = true ↔ ∀ p ∈ paths, dirpath <+: p := by
  simp [allHavePrefix, List.all_eq_true]

theorem getLast?_take_succ (l : Path) :
    ∀ i, i < l.length → (l.take (i + 1)).getLast? = l.get? i := by
  induction l with
  | nil => intro i h; simp at h
  | cons a t ih =>
    intro i h
    cases i with
    | zero => simp
    | succ j =>
      have hj : j < t.length := by simpa using h
      have hne : t.take (j + 1) ≠ [] := by
        cases t with
        | nil => simp at hj
        | cons b u => simp
      rw [List.take_succ_cons, getLast?_cons_of_ne_nil hne, ih j hj]
      simp

/-- The second loop of `GCDPath`, started at index `i` with a result that is
the deepest common directory among the prefixes of at most `i` bytes, returns
the deepest common directory. -/
theorem gcdLoop_spec (sep : Nat) (paths : List Path) (shortest : Path)
    (hmem : shortest ∈ paths) :
    ∀ (n i : Nat) (result : Path), n + i = shortest.length →
      (∀ p ∈ paths, result <+: p) → (result = [] ∨ result.getLast? = some sep) →
      (∀ s : Path, s.getLast? = some sep → (∀ p ∈ paths, s <+: p) → s.length ≤ i →
        s.length ≤ result.length) →
      IsDeepestCommonDir sep paths (gcdLoop sep paths shortest n i result) := by
  intro n
  induction n with
  | zero =>
    intro i result hlen h1 h2 h3
    refine ⟨h1, h2, ?_⟩
    intro s hs hall
    have := (hall shortest hmem).length_le
    exact h3 s hs hall (by omega)
  | succ n ih =>
    intro i result hlen h1 h2 h3
    have hi : i < shortest.length := by omega
    by_cases hc : shortest.get? i = some sep
    · by_cases hall : allHavePrefix (shortest.take (i + 1)) paths = true
      · have hstep : gcdLoop sep paths shortest (n + 1) i result =
            gcdLoop sep paths shortest n (i + 1) (shortest.take (i + 1)) := by
          simp only [gcdLoop, hc, hall, if_true]
        rw [hstep]
        apply ih (i + 1) _ (by omega) ((allHavePrefix_iff _ _).mp hall)
        · right; rw [getLast?_take_succ shortest i hi]; exact hc
        · intro s _ _ hle
          rw [List.length_take]
          omega
      · have hstep : gcdLoop sep paths shortest (n + 1) i result = result := by
          simp only [gcdLoop, hc, hall, if_true]
          simp
        rw [hstep]
        refine ⟨h1, h2, ?_⟩
        intro s hs hsall
        by_cases hle : s.length ≤ i
        · exact h3 s hs hsall hle
        · exfalso
          apply hall
          rw [allHavePrefix_iff]
          intro p hp
          have hpre : shortest.take (i + 1) <+: s := by
            apply List.prefix_of_prefix_length_le (List.take_prefix _ _) (hsall shortest hmem)
            rw [List.length_take]
            omega
          exact hpre.trans (hsall p hp)
    · have hstep : gcdLoop sep paths shortest (n + 1) i result =
          gcdLoop sep paths shortest n (i + 1) result := by
        simp only [gcdLoop, hc, if_false]
      rw [hstep]
      apply ih (i + 1) result (by omega) h1 h2
      intro s hs hsall hle
      by_cases hle2 : s.length ≤ i
      · exact h3 s hs hsall hle2
      · exfalso
        have hlen2 : s.length = i + 1 := by omega
        have heq : s = shortest.take (i + 1) := by
          rw [← hlen2]; exact List.prefix_iff_eq_take.mp (hsall shortest hmem)
        rw [heq, getLast?_take_succ shortest i hi] at hs
        exact hc hs

/-- For a non-empty list, `GCDPath` returns the deepest common directory. -/
theorem GCDPath_isDeepest (sep : Nat) (paths : List Path) (h : paths ≠ []) :
    IsDeepestCommonDir sep paths (GCDPath sep paths) := by
  unfold GCDPath
  apply gcdLoop_spec sep paths (shortestPath paths) (shortestPath_mem paths h)
  · omega
  · intro p _; exact List.nil_prefix
  · left; rfl
  · intro s hs _ hle
    have : s = [] := List.length_eq_zero.mp (by omega)
    subst this
    simp at hs

/-- Two deepest common directories of a non-empty list are equal. -/
theorem isDeepest_unique (sep : Nat) (paths : List Path) (h : paths ≠ []) (r1 r2 : Path)
    (h1 : IsDeepestCommonDir sep paths r1) (h2 : IsDeepestCommonDir sep paths r2) :
    r1 = r2 := by
  obtain ⟨p, hp⟩ := List.exists_mem_of_ne_nil paths h
  obtain ⟨a1, b1, c1⟩ := h1
  obtain ⟨a2, b2, c2⟩ := h2
  have l12 : r1.length ≤ r2.length := by
    rcases b1 with b1 | b1
    · subst b1; simp
    · exact c2 r1 b1 a1
  have l21 : r2.length ≤ r1.length := by
    rcases b2 with b2 | b2
    · subst b2; simp
    · exact c1 r2 b2 a2
  have hpre : r1 <+: r2 := List.prefix_of_prefix_length_le (a1 p hp) (a2 p hp) l12
  exact hpre.eq_of_length (by omega)

theorem length_le_dropWhile_append (q : Nat → Bool) (a : Nat) (l2 : Path)
    (ha : q a = false) :
    ∀ l1 : Path, (a :: l2).length ≤ ((l1 ++ a :: l2).dropWhile q).length := by
  intro l1
  induction l1 with
  | nil => simp [List.dropWhile_cons, ha]
  | cons b t ih =>
    by_cases hb : q b = true
    · simpa [List.dropWhile_cons, hb] using ih
    · simp [List.dropWhile_cons, hb]
      omega

/-- The path cut after its last separator is the deepest common directory of
the path alone. -/
theorem cutAfterLastSep_isDeepest (sep : Nat) (p : Path) :
    IsDeepestCommonDir sep [p] (cutAfterLastSep sep p) := by
  unfold cutAfterLastSep
  refine ⟨?_, ?_, ?_⟩
  · intro x hx
    rw [List.mem_singleton] at hx
    subst hx
    have := List.dropWhile_suffix (l := x.reverse) (fun c => decide (c ≠ sep))
    have h2 := List.reverse_prefix.mpr this
    simpa using h2
  · have h := List.head?_dropWhile_not (fun c => decide (c ≠ sep)) p.reverse
    rw [List.getLast?_reverse]
    cases hd : List.dropWhile (fun c => decide (c ≠ sep)) p.reverse with
    | nil => left; rfl
    | cons a t =>
      right
      rw [hd] at h
      simp at h
      simp [h]
  · intro s hs hall
    obtain ⟨t, ht⟩ := hall p (List.mem_singleton_self p)
    rw [List.length_reverse, ← ht, List.reverse_append]
    have hsr : s.reverse.head? = some sep := by
      rw [← List.getLast?_reverse, List.reverse_reverse]; exact hs
    cases hr : s.reverse with
    | nil => rw [hr] at hsr; simp at hsr
    | cons a u =>
      rw [hr] at hsr
      simp at hsr
      subst hsr
      have := length_le_dropWhile_append (fun c => decide (c ≠ a)) a u (by simp) t.reverse
      have hl : s.length = (a :: u).length := by rw [← hr, List.length_reverse]
      omega

theorem sepMatch_pos_iff (sep : Nat) (d f : Path) :
    0 < sepMatch sep d f ↔ SharesDir sep d f := by
  constructor
  · intro h
    rcases sepMatch_attained sep d f with h0 | ⟨p, hd, hf, hl, _⟩
    · omega
    · exact ⟨p, hd, hf, List.mem_of_getLast?_eq_some hl⟩
  · rintro ⟨p, hd, hf, hs⟩
    obtain ⟨a, b, hab⟩ := List.append_of_mem hs
    have hq : a ++ [sep] <+: p := by
      rw [hab]
      exact ⟨b, by simp⟩
    have := le_sepMatch sep d f (a ++ [sep]) (hq.trans hd) (hq.trans hf)
      (List.getLast?_concat a)
    simp only [List.length_append, List.length_singleton] at this
    omega

/-- A key of the result of `MapFilesToDir` that lists a file is one of the
directories. -/
theorem MapFilesToDir_listed_dir_mem (sep : Nat) (dirs files : List Path) (d f : Path)
    (h : Lists (MapFilesToDir sep dirs files) d f) : d ∈ dirs := by
  obtain ⟨_, ho⟩ := (lists_iff sep dirs files d f).mp h
  obtain ⟨pre, post, hdirs, _⟩ := ownerDir_eq_some sep dirs f d ho
  simp [hdirs]

/-! ## The claims about GCDPath -/

/-- C1, as stated, fails on the empty list of paths: `GCDPath` returns the
empty string, and the one-byte string of the separator is, vacuously, a longer
string that ends with the separator and is a prefix of every path. -/
theorem GCDPath_no_paths_not_deepest :
    GCDPath slash [] = [] ∧
      ¬ (∀ s : Path, s.getLast? = some slash → (∀ p ∈ ([] : List Path), s <+: p) →
        s.length ≤ (GCDPath slash []).length) := by
  refine ⟨by decide, ?_⟩
  intro h
  have := h [slash] (by simp) (by simp)
  revert this
  decide

/-- C1, amended to non-empty lists: `GCDPath(paths)` is a prefix of every path,
it is empty or ends with the separator, no string that ends with the separator
and is a prefix of every path is longer, and for a single path `p` the result
is `p` cut after its last separator. -/
theorem GCDPath_deepest_common_dir (sep : Nat) (paths : List Path) (h : paths ≠ []) :
    (∀ p ∈ paths, GCDPath sep paths <+: p) ∧
    (GCDPath sep paths = [] ∨ (GCDPath sep paths).getLast? = some sep) ∧
    (∀ s : Path, s.getLast? = some sep → (∀ p ∈ paths, s <+: p) →
      s.length ≤ (GCDPath sep paths).length) ∧
    (∀ p : Path, GCDPath sep [p] = cutAfterLastSep sep p) := by
  obtain ⟨h1, h2, h3⟩ := GCDPath_isDeepest sep paths h
  refine ⟨h1, h2, h3, ?_⟩
  intro p
  exact isDeepest_unique sep [p] (by simp) _ _ (GCDPath_isDeepest sep [p] (by simp))
    (cutAfterLastSep_isDeepest sep p)

/-- C1, amended, at `["/a/b/c", "/a/b/d"]`, where `GCDPath` returns `/a/b/`. -/
theorem GCDPath_deepest_common_dir_witness :
    [str "/a/b/c", str "/a/b/d"] ≠ [] ∧
    GCDPath slash [str "/a/b/c", str "/a/b/d"] = str "/a/b/" ∧
    ((∀ p ∈ [str "/a/b/c", str "/a/b/d"],
        GCDPath slash [str "/a/b/c", str "/a/b/d"] <+: p) ∧
      (GCDPath slash [str "/a/b/c", str "/a/b/d"] = [] ∨
        (GCDPath slash [str "/a/b/c", str "/a/b/d"]).getLast? = some slash) ∧
      (∀ s : Path, s.getLast? = some slash →
        (∀ p ∈ [str "/a/b/c", str "/a/b/d"], s <+: p) →
        s.length ≤ (GCDPath slash [str "/a/b/c", str "/a/b/d"]).length) ∧
      (∀ p : Path, GCDPath slash [p] = cutAfterLastSep slash p)) :=
  ⟨by decide, by decide,
    GCDPath_deepest_common_dir slash [str "/a/b/c", str "/a/b/d"] (by decide)⟩

/-- C2, as stated, fails: with `/` as separator `GCDPath(["/a/b", "/x/y"])` is
not the empty string. -/
theorem GCDPath_root_shared_ne_empty :
    GCDPath slash [str "/a/b", str "/x/y"] ≠ str "" := by
  decide

/-- C2, amended: for a non-empty list, `GCDPath` returns the empty string
exactly when no string that ends with the separator is a prefix of every path;
with `/` as separator `GCDPath(["a/b", "x/y"])` is empty and
`GCDPath(["/a/b", "/x/y"])` is `/`, the root that both paths lie under. -/
theorem GCDPath_empty_iff_no_common_dir (sep : Nat) (paths : List Path)
    (h : paths ≠ []) :
    (GCDPath sep paths = [] ↔
      ¬ ∃ s : Path, s.getLast? = some sep ∧ ∀ p ∈ paths, s <+: p) ∧
    GCDPath slash [str "a/b", str "x/y"] = str "" ∧
    GCDPath slash [str "/a/b", str "/x/y"] = str "/" := by
  obtain ⟨_, h2, h3⟩ := GCDPath_isDeepest sep paths h
  refine ⟨⟨?_, ?_⟩, by decide, by decide⟩
  · rintro he ⟨s, hs, hall⟩
    have := h3 s hs hall
    rw [he] at this
    have : s = [] := List.length_eq_zero.mp (by simpa using this)
    subst this
    simp at hs
  · intro hno
    rcases h2 with h2 | h2
    · exact h2
    · exact absurd ⟨GCDPath sep paths, h2, (GCDPath_isDeepest sep paths h).1⟩ hno

/-- C2, amended, at `["a/b", "x/y"]`, two paths without a common directory. -/
theorem GCDPath_empty_iff_no_common_dir_witness :
    [str "a/b", str "x/y"] ≠ [] ∧
    ((GCDPath slash [str "a/b", str "x/y"] = [] ↔
      ¬ ∃ s : Path, s.getLast? = some slash ∧ ∀ p ∈ [str "a/b", str "x/y"], s <+: p) ∧
    GCDPath slash [str "a/b", str "x/y"] = str "" ∧
    GCDPath slash [str "/a/b", str "/x/y"] = str "/") :=
  ⟨by decide, GCDPath_empty_iff_no_common_dir slash [str "a/b", str "x/y"] (by decide)⟩

/-- C21: `GCDPath` returns the same string for a list of paths and for every
permutation of it, and for a non-empty list `ps` the result for `ps ++ qs` is a
prefix of the result for `ps`. -/
theorem GCDPath_perm_and_append (sep : Nat) (ps ps2 : List Path) (h : ps.Perm ps2) :
    GCDPath sep ps = GCDPath sep ps2 ∧
    ∀ qs : List Path, ps ≠ [] → GCDPath sep (ps ++ qs) <+: GCDPath sep ps := by
  constructor
  · by_cases hne : ps = []
    · subst hne
      have : ps2 = [] := List.Perm.eq_nil h.symm
      subst this
      rfl
    · have hne2 : ps2 ≠ [] := fun e => hne (List.Perm.eq_nil (e ▸ h))
      obtain ⟨a, b, c⟩ := GCDPath_isDeepest sep ps2 hne2
      refine isDeepest_unique sep ps hne _ _ (GCDPath_isDeepest sep ps hne) ⟨?_, b, ?_⟩
      · intro p hp
        exact a p (h.mem_iff.mp hp)
      · intro s hs hall
        exact c s hs (fun p hp => hall p (h.mem_iff.mpr hp))
  · intro qs hne
    have hne2 : ps ++ qs ≠ [] := by simp [hne]
    obtain ⟨a1, b1, _⟩ := GCDPath_isDeepest sep (ps ++ qs) hne2
    obtain ⟨a2, _, c2⟩ := GCDPath_isDeepest sep ps hne
    obtain ⟨p, hp⟩ := List.exists_mem_of_ne_nil ps hne
    have hall : ∀ x ∈ ps, GCDPath sep (ps ++ qs) <+: x :=
      fun x hx => a1 x (List.mem_append_left _ hx)
    have hle : (GCDPath sep (ps ++ qs)).length ≤ (GCDPath sep ps).length := by
      rcases b1 with b1 | b1
      · rw [b1]; simp
      · exact c2 _ b1 hall
    exact List.prefix_of_prefix_length_le (hall p hp) (a2 p hp) hle

/-- C21 at `["/a/b/c", "/a/b/d", "/a/x"]`, with the shortest path last, and the
same paths with the shortest path first: both give `/a/`, a prefix of the
result `/a/b/` for the first two paths alone. -/
theorem GCDPath_perm_and_append_witness :
    [str "/a/b/c", str "/a/b/d", str "/a/x"].Perm [str "/a/x", str "/a/b/c", str "/a/b/d"] ∧
    GCDPath slash [str "/a/b/c", str "/a/b/d", str "/a/x"] = str "/a/" ∧
    GCDPath slash [str "/a/b/c", str "/a/b/d"] = str "/a/b/" ∧
    (GCDPath slash [str "/a/b/c", str "/a/b/d", str "/a/x"] =
        GCDPath slash [str "/a/x", str "/a/b/c", str "/a/b/d"] ∧
      ∀ qs : List Path, [str "/a/b/c", str "/a/b/d", str "/a/x"] ≠ [] →
        GCDPath slash ([str "/a/b/c", str "/a/b/d", str "/a/x"] ++ qs) <+:
          GCDPath slash [str "/a/b/c", str "/a/b/d", str "/a/x"]) :=
  ⟨by decide, by decide, by decide,
    GCDPath_perm_and_append slash [str "/a/b/c", str "/a/b/d", str "/a/x"]
      [str "/a/x", str "/a/b/c", str "/a/b/d"] (by decide)⟩

/-! ## The claims about MapFilesToDir -/

/-- C3: a file `f` of `files` that has a positive match with some directory is
listed under the first element of `dirs` whose match with `f` is the maximum
over `dirs`, and under no other key. -/
theorem MapFilesToDir_first_longest_match (sep : Nat) (dirs files : List Path)
    (f : Path) (hf : f ∈ files) (hex : ∃ d ∈ dirs, 0 < sepMatch sep d f) :
    ∃ pre dstar post, dirs = pre ++ dstar :: post ∧
      (∀ d ∈ dirs, sepMatch sep d f ≤ sepMatch sep dstar f) ∧
      (∀ x ∈ pre, sepMatch sep x f < sepMatch sep dstar f) ∧
      Lists (MapFilesToDir sep dirs files) dstar f ∧
      ∀ k, Lists (MapFilesToDir sep dirs files) k f → k = dstar := by
  cases ho : ownerDir sep dirs f with
  | none =>
    obtain ⟨d, hd, hpos⟩ := hex
    have := (ownerDir_eq_none_iff sep dirs f).mp ho d hd
    omega
  | some dstar =>
    obtain ⟨pre, post, hdirs, _, hpre, hpost⟩ := ownerDir_eq_some sep dirs f dstar ho
    refine ⟨pre, dstar, post, hdirs, ?_, hpre, ?_, ?_⟩
    · intro d hd
      rw [hdirs] at hd
      rcases List.mem_append.mp hd with hd | hd
      · exact Nat.le_of_lt (hpre d hd)
      · rcases List.mem_cons.mp hd with hd | hd
        · subst hd; exact Nat.le_refl _
        · exact hpost d hd
    · exact (lists_iff sep dirs files dstar f).mpr ⟨hf, ho⟩
    · intro k hk
      have := ((lists_iff sep dirs files k f).mp hk).2
      rw [ho] at this
      exact (Option.some.inj this).symm

/-- C3 at `dirs = ["/a/", "/a/b/", "/a/b/x"]` and the file `/a/b/c`: the last
two directories tie with the longest match and the first of them is chosen. -/
theorem MapFilesToDir_first_longest_match_witness :
    str "/a/b/c" ∈ [str "/a/d", str "/a/b/c"] ∧
    (∃ d ∈ [str "/a/", str "/a/b/", str "/a/b/x"], 0 < sepMatch slash d (str "/a/b/c")) ∧
    ∃ pre dstar post, [str "/a/", str "/a/b/", str "/a/b/x"] = pre ++ dstar :: post ∧
      (∀ d ∈ [str "/a/", str "/a/b/", str "/a/b/x"],
        sepMatch slash d (str "/a/b/c") ≤ sepMatch slash dstar (str "/a/b/c")) ∧
      (∀ x ∈ pre, sepMatch slash x (str "/a/b/c") < sepMatch slash dstar (str "/a/b/c")) ∧
      Lists (MapFilesToDir slash [str "/a/", str "/a/b/", str "/a/b/x"]
        [str "/a/d", str "/a/b/c"]) dstar (str "/a/b/c") ∧
      ∀ k, Lists (MapFilesToDir slash [str "/a/", str "/a/b/", str "/a/b/x"]
        [str "/a/d", str "/a/b/c"]) k (str "/a/b/c") → k = dstar :=
  ⟨by decide, ⟨str "/a/", by decide, by decide⟩,
    MapFilesToDir_first_longest_match slash [str "/a/", str "/a/b/", str "/a/b/x"]
      [str "/a/d", str "/a/b/c"] (str "/a/b/c") (by decide)
      ⟨str "/a/", by decide, by decide⟩⟩

/-- C4, as stated, fails: with `dirs = ["/a/b"]` the file `/a/c` is listed under
`/a/b`, a sibling directory that is not a path prefix of the file. -/
theorem MapFilesToDir_lists_sibling :
    Lists (MapFilesToDir slash [str "/a/b"] [str "/a/c"]) (str "/a/b") (str "/a/c") ∧
      ¬ IsUnder slash (str "/a/b") (str "/a/c") := by
  refine ⟨⟨[str "/a/c"], by decide, by decide⟩, by decide⟩

/-- C4, amended: whenever `MapFilesToDir(dirs, files)` lists a file `f` under a
directory `d`, `f` is one of the files, `d` is one of the directories, `d` and
`f` share a common prefix that ends with the separator, and no directory shares
a longer such prefix with `f`. -/
theorem MapFilesToDir_listed_shares_dir (sep : Nat) (dirs files : List Path)
    (d f : Path) (h : Lists (MapFilesToDir sep dirs files) d f) :
    f ∈ files ∧ d ∈ dirs ∧
      (∃ p : Path, p <+: d ∧ p <+: f ∧ p.getLast? = some sep) ∧
      ∀ d2 ∈ dirs, sepMatch sep d2 f ≤ sepMatch sep d f := by
  obtain ⟨hf, ho⟩ := (lists_iff sep dirs files d f).mp h
  obtain ⟨pre, post, hdirs, hpos, hpre, hpost⟩ := ownerDir_eq_some sep dirs f d ho
  refine ⟨hf, by simp [hdirs], ?_, ?_⟩
  · rcases sepMatch_attained sep d f with h0 | ⟨p, hd, hpf, hl, _⟩
    · omega
    · exact ⟨p, hd, hpf, hl⟩
  · intro d2 hd2
    rw [hdirs] at hd2
    rcases List.mem_append.mp hd2 with hd2 | hd2
    · exact Nat.le_of_lt (hpre d2 hd2)
    · rcases List.mem_cons.mp hd2 with hd2 | hd2
      · subst hd2; exact Nat.le_refl _
      · exact hpost d2 hd2

/-- C4, amended, at `dirs = ["/a/b"]` and the file `/a/c`. -/
theorem MapFilesToDir_listed_shares_dir_witness :
    Lists (MapFilesToDir slash [str "/a/b"] [str "/a/c"]) (str "/a/b") (str "/a/c") ∧
    (str "/a/c" ∈ [str "/a/c"] ∧ str "/a/b" ∈ [str "/a/b"] ∧
      (∃ p : Path, p <+: str "/a/b" ∧ p <+: str "/a/c" ∧ p.getLast? = some slash) ∧
      ∀ d2 ∈ [str "/a/b"], sepMatch slash d2 (str "/a/c") ≤
        sepMatch slash (str "/a/b") (str "/a/c")) :=
  ⟨⟨[str "/a/c"], by decide, by decide⟩,
    MapFilesToDir_listed_shares_dir slash [str "/a/b"] [str "/a/c"] (str "/a/b")
      (str "/a/c") ⟨[str "/a/c"], by decide, by decide⟩⟩

/-- C5: `MapFilesToDir(D, F)` has unique keys, no file is listed under two
different keys, and the number of entries over all keys is at most `len(F)`. -/
theorem MapFilesToDir_at_most_one_dir (sep : Nat) (D F : List Path) :
    ((MapFilesToDir sep D F).map Prod.fst).Nodup ∧
    (∀ f d1 d2 : Path, Lists (MapFilesToDir sep D F) d1 f →
      Lists (MapFilesToDir sep D F) d2 f → d1 = d2) ∧
    totalEntries (MapFilesToDir sep D F) ≤ F.length := by
  refine ⟨nodup_keys_MapFilesToDir sep D F, ?_, ?_⟩
  · intro f d1 d2 h1 h2
    have e1 := ((lists_iff sep D F d1 f).mp h1).2
    have e2 := ((lists_iff sep D F d2 f).mp h2).2
    rw [e1] at e2
    exact Option.some.inj e2
  · unfold MapFilesToDir
    split
    · simp [totalEntries]
    · have := totalEntries_fileLoop sep D F []
      simpa [totalEntries] using this

/-- C6: a file of `files` is absent from every list of `MapFilesToDir(dirs,
files)` exactly when no directory shares with it a common prefix that contains
a separator, it is listed under some key otherwise, and the mapping is empty
when `dirs` is empty, for every list of files. -/
theorem MapFilesToDir_drops_unmatched (sep : Nat) (dirs files : List Path) :
    (∀ f ∈ files,
      ((∀ d : Path, ¬ Lists (MapFilesToDir sep dirs files) d f) ↔
        ¬ ∃ d ∈ dirs, ∃ p : Path, p <+: d ∧ p <+: f ∧ sep ∈ p) ∧
      ((∃ d ∈ dirs, ∃ p : Path, p <+: d ∧ p <+: f ∧ sep ∈ p) →
        ∃ d : Path, Lists (MapFilesToDir sep dirs files) d f)) ∧
    MapFilesToDir sep [] files = [] := by
  refine ⟨?_, by simp [MapFilesToDir]⟩
  intro f hf
  have key : (∃ d : Path, Lists (MapFilesToDir sep dirs files) d f) ↔
      ∃ d ∈ dirs, ∃ p : Path, p <+: d ∧ p <+: f ∧ sep ∈ p := by
    constructor
    · rintro ⟨d, hd⟩
      obtain ⟨_, ho⟩ := (lists_iff sep dirs files d f).mp hd
      obtain ⟨pre, post, hdirs, hpos, _, _⟩ := ownerDir_eq_some sep dirs f d ho
      exact ⟨d, by simp [hdirs], (sepMatch_pos_iff sep d f).mp hpos⟩
    · rintro ⟨d, hd, hp⟩
      have hpos := (sepMatch_pos_iff sep d f).mpr hp
      cases ho : ownerDir sep dirs f with
      | none =>
        have := (ownerDir_eq_none_iff sep dirs f).mp ho d hd
        omega
      | some k => exact ⟨k, (lists_iff sep dirs files k f).mpr ⟨hf, ho⟩⟩
  refine ⟨?_, key.mpr⟩
  rw [← key]
  exact not_exists.symm

/-- C6 at `dirs = ["/a/"]` and `files = ["/a/b/c", "q/r"]`: the file `q/r` is
dropped and the file `/a/b/c` is listed under `/a/`. -/
theorem MapFilesToDir_drops_unmatched_witness :
    (∀ d : Path, ¬ Lists (MapFilesToDir slash [str "/a/"] [str "/a/b/c", str "q/r"])
      d (str "q/r")) ∧
    Lists (MapFilesToDir slash [str "/a/"] [str "/a/b/c", str "q/r"])
      (str "/a/") (str "/a/b/c") ∧
    MapFilesToDir slash [] [str "/a/b/c", str "q/r"] = [] := by
  have h := MapFilesToDir_drops_unmatched slash [str "/a/"] [str "/a/b/c", str "q/r"]
  refine ⟨?_, ⟨[str "/a/b/c"], by decide, by decide⟩, by decide⟩
  apply (h.1 (str "q/r") (by decide)).1.mpr
  rintro ⟨d, hd, p, hpd, hpf, hs⟩
  rw [List.mem_singleton] at hd
  subst hd
  have hpos := (sepMatch_pos_iff slash (str "/a/") (str "q/r")).mpr ⟨p, hpd, hpf, hs⟩
  revert hpos
  decide

end Finder

namespace Java
open Finder

/-! ## Strategy.Invoke -/

theorem jobsLoop_eq (sep : Nat) (config : Option Config) :
    ∀ (entries : DirMap) (jobs : List Job),
      jobsLoop sep config entries jobs =
        jobs ++ entries.map (fun e => NewJob e.1 [GCDPath sep e.2] config) := by
  intro entries
  induction entries with
  | nil => intro jobs; simp [jobsLoop]
  | cons e rest ih =>
    intro jobs
    obtain ⟨k, v⟩ := e
    simp [jobsLoop, ih]

/-- With a configuration, `Invoke` returns one job per visited entry of the
mapping and a nil error. -/
theorem Invoke_some (fd : FinderFns) (ro : RangeOrder) (sep : Nat) (cfg : Config)
    (files : List Path) :
    Invoke fd ro sep (NewStrategy (some cfg) files) =
      some ((ro.order (rootClassMapping fd sep cfg files)).map
        (fun e => NewJob e.1 [GCDPath sep e.2] (some cfg)), none) := by
  simp [Invoke, NewStrategy, rootClassMapping, jobsLoop_eq]

/-- With a configuration and an empty mapping, `Invoke` returns no job and a
nil error. -/
theorem Invoke_empty_mapping (fd : FinderFns) (ro : RangeOrder) (sep : Nat)
    (cfg : Config) (files : List Path) (h : rootClassMapping fd sep cfg files = []) :
    Invoke fd ro sep (NewStrategy (some cfg) files) = some ([], none) := by
  rw [Invoke_some, h]
  have := ro.perm []
  rw [List.perm_nil] at this
  rw [this]
  rfl

theorem MapFilesToDir_single (sep : Nat) (r c : Path) (h : SharesDir sep r c) :
    MapFilesToDir sep [r] [c] = [(r, [c])] := by
  have hpos := (sepMatch_pos_iff sep r c).mpr h
  have ho : ownerDir sep [r] c = some r := by
    cases hd : ownerDir sep [r] c with
    | none =>
      have := (ownerDir_eq_none_iff sep [r] c).mp hd r (List.mem_singleton_self r)
      omega
    | some d =>
      obtain ⟨pre, post, hdirs, _⟩ := ownerDir_eq_some sep [r] c d hd
      have : d ∈ [r] := by rw [hdirs]; simp
      rw [List.mem_singleton] at this
      rw [this]
  have hne : ¬ ([r] : List Path).length = 0 := by simp
  unfold MapFilesToDir
  rw [if_neg hne, fileLoop_cons, ho]
  simp [fileLoop, addFile, mapGet, mapSet]

theorem cutAfterLastSep_of_ends_with_sep (sep : Nat) (c : Path)
    (h : c.getLast? = some sep) : cutAfterLastSep sep c = c := by
  obtain ⟨ys, hys⟩ := List.getLast?_eq_some_iff.mp h
  subst hys
  simp [cutAfterLastSep, List.dropWhile_cons]

/-! ## The claims about Strategy.Invoke -/

/-- C7, as stated, fails: with the single root `/proj` and the single class
directory `/proj/classes` under it, the target of the one job is `/proj/` and
not the class directory; and with the root `proj` and the class directory
`proj/classes` under it, no job is returned. -/
theorem Invoke_target_is_not_classDir :
    IsUnder slash (str "/proj") (str "/proj/classes") ∧
    Invoke (constFinder [str "/proj"] [] [str "/proj/classes"]) insertionOrder slash
        (NewStrategy (some ⟨"java", [], []⟩) [str "/proj/pom.xml", str "/proj/classes/A.class"]) =
      some ([NewJob (str "/proj") [str "/proj/"] (some ⟨"java", [], []⟩)], none) ∧
    [str "/proj/"] ≠ [str "/proj/classes"] ∧
    IsUnder slash (str "proj") (str "proj/classes") ∧
    Invoke (constFinder [str "proj"] [] [str "proj/classes"]) insertionOrder slash
        (NewStrategy (some ⟨"java", [], []⟩) [str "proj/pom.xml", str "proj/classes/A.class"]) =
      some ([], none) := by
  refine ⟨by decide, by decide, by decide, by decide, by decide⟩

/-- C7, amended: for a strategy with a configuration, when root finding yields
exactly one root `r` that contains a separator and class-directory finding
yields exactly one class directory `c` located under `r`, `Invoke` returns
exactly one job, whose working directory is `r` and whose target list is `c`
cut after its last separator, which is `c` when `c` ends with the separator. -/
theorem Invoke_single_root_single_classDir (fd : FinderFns) (ro : RangeOrder)
    (sep : Nat) (cfg : Config) (files : List Path) (r c : Path)
    (hr : (findRoots fd (cfg.Kwargs "pm") files).1 = [r])
    (hc : fd.FindJavaClassDirs files = [c])
    (hu : IsUnder sep r c) (hs : sep ∈ r) :
    ∃ j : Job, Invoke fd ro sep (NewStrategy (some cfg) files) = some ([j], none) ∧
      j.GetDir = r ∧ j.GetFiles = [GCDPath sep [c]] ∧
      j.GetFiles = [cutAfterLastSep sep c] ∧
      (c.getLast? = some sep → j.GetFiles = [c]) := by
  have hm : rootClassMapping fd sep cfg files = [(r, [c])] := by
    unfold rootClassMapping
    rw [hr, hc]
    exact MapFilesToDir_single sep r c ⟨r, List.prefix_refl r, hu.1, hs⟩
  have hord : ro.order [(r, [c])] = [(r, [c])] := List.perm_singleton.mp (ro.perm _)
  have hg : GCDPath sep [c] = cutAfterLastSep sep c :=
    isDeepest_unique sep [c] (by simp) _ _ (GCDPath_isDeepest sep [c] (by simp))
      (cutAfterLastSep_isDeepest sep c)
  refine ⟨NewJob r [GCDPath sep [c]] (some cfg), ?_, rfl, rfl, ?_, ?_⟩
  · rw [Invoke_some, hm, hord]
    rfl
  · simp [Job.GetFiles, NewJob, hg]
  · intro hl
    simp [Job.GetFiles, NewJob, hg, cutAfterLastSep_of_ends_with_sep sep c hl]

/-- C7, amended, at the root `/proj` and the class directory `/proj/classes/`. -/
theorem Invoke_single_root_single_classDir_witness :
    (findRoots (constFinder [str "/proj"] [] [str "/proj/classes/"])
      (Config.Kwargs ⟨"java", [], []⟩ "pm") [str "/proj/pom.xml"]).1 = [str "/proj"] ∧
    (constFinder [str "/proj"] [] [str "/proj/classes/"]).FindJavaClassDirs
      [str "/proj/pom.xml"] = [str "/proj/classes/"] ∧
    IsUnder slash (str "/proj") (str "/proj/classes/") ∧ slash ∈ str "/proj" ∧
    ∃ j : Job, Invoke (constFinder [str "/proj"] [] [str "/proj/classes/"]) reverseOrder slash
        (NewStrategy (some ⟨"java", [], []⟩) [str "/proj/pom.xml"]) = some ([j], none) ∧
      j.GetDir = str "/proj" ∧ j.GetFiles = [GCDPath slash [str "/proj/classes/"]] ∧
      j.GetFiles = [cutAfterLastSep slash (str "/proj/classes/")] ∧
      ((str "/proj/classes/").getLast? = some slash → j.GetFiles = [str "/proj/classes/"]) :=
  ⟨by decide, by decide, by decide, by decide,
    Invoke_single_root_single_classDir (constFinder [str "/proj"] [] [str "/proj/classes/"])
      reverseOrder slash ⟨"java", [], []⟩ [str "/proj/pom.xml"] (str "/proj")
      (str "/proj/classes/") (by decide) (by decide) (by decide) (by decide)⟩

/-- C8: for a strategy with a configuration, `Invoke` returns one job per key of
`MapFilesToDir(roots, classDirs)`: the working directories of the jobs are the
keys, each once; the job of a key is in `roots`, has at least one class
directory mapped to it, has the single target `GCDPath` of these class
directories and carries the configuration. -/
theorem Invoke_one_job_per_mapped_root (fd : FinderFns) (ro : RangeOrder) (sep : Nat)
    (cfg : Config) (files : List Path) :
    ∃ jobs : List Job,
      Invoke fd ro sep (NewStrategy (some cfg) files) = some (jobs, none) ∧
      (jobs.map Job.GetDir).Perm ((rootClassMapping fd sep cfg files).map Prod.fst) ∧
      (jobs.map Job.GetDir).Nodup ∧
      jobs.length = (rootClassMapping fd sep cfg files).length ∧
      ∀ j ∈ jobs, j.GetDir ∈ (findRoots fd (cfg.Kwargs "pm") files).1 ∧
        j.config = some cfg ∧
        ∃ classDirs, (j.GetDir, classDirs) ∈ rootClassMapping fd sep cfg files ∧
          classDirs ≠ [] ∧ j.GetFiles = [GCDPath sep classDirs] := by
  refine ⟨_, Invoke_some fd ro sep cfg files, ?_, ?_, ?_, ?_⟩
  · rw [List.map_map]
    exact (ro.perm _).map _
  · rw [List.map_map]
    have hp : ((ro.order (rootClassMapping fd sep cfg files)).map Prod.fst).Perm
        ((rootClassMapping fd sep cfg files).map Prod.fst) := (ro.perm _).map _
    exact hp.nodup_iff.mpr (nodup_keys_MapFilesToDir sep _ _)
  · rw [List.length_map]
    exact (ro.perm _).length_eq
  · intro j hj
    rw [List.mem_map] at hj
    obtain ⟨e, he, rfl⟩ := hj
    obtain ⟨k, v⟩ := e
    have hmem : (k, v) ∈ rootClassMapping fd sep cfg files := (ro.perm _).mem_iff.mp he
    have hmem2 := hmem
    unfold rootClassMapping at hmem2
    rw [mem_MapFilesToDir_iff] at hmem2
    obtain ⟨c, hc⟩ := List.exists_mem_of_ne_nil v hmem2.2
    have hl : Lists (MapFilesToDir sep (findRoots fd (cfg.Kwargs "pm") files).1
        (fd.FindJavaClassDirs files)) k c := ⟨v, hmem, hc⟩
    refine ⟨(MapFilesToDir_listed_dir_mem sep _ _ k c hl), rfl, v, hmem, hmem2.2, rfl⟩

/-- C9 at the input of `TestInvokeNoFiles`, a strategy made of a nil
configuration and no file: `Invoke` does not return, it panics on
`s.config.Kwargs()`. -/
theorem Invoke_nil_config_no_files (fd : FinderFns) (ro : RangeOrder) (sep : Nat) :
    Invoke fd ro sep (NewStrategy none []) = none := by
  rfl

/-- With a configuration, `Invoke` returns no job and a nil error when there is
no root, no class directory, or no class directory that shares a directory
with a root. -/
theorem Invoke_no_mapping (fd : FinderFns) (ro : RangeOrder) (sep : Nat) (cfg : Config)
    (files : List Path)
    (h : (findRoots fd (cfg.Kwargs "pm") files).1 = [] ∨ fd.FindJavaClassDirs files = [] ∨
      ∀ c ∈ fd.FindJavaClassDirs files, ∀ r ∈ (findRoots fd (cfg.Kwargs "pm") files).1,
        ¬ SharesDir sep r c) :
    Invoke fd ro sep (NewStrategy (some cfg) files) = some ([], none) := by
  apply Invoke_empty_mapping
  unfold rootClassMapping
  cases hm : MapFilesToDir sep (findRoots fd (cfg.Kwargs "pm") files).1
      (fd.FindJavaClassDirs files) with
  | nil => rfl
  | cons e rest =>
    exfalso
    obtain ⟨k, v⟩ := e
    have hmem : (k, v) ∈ MapFilesToDir sep (findRoots fd (cfg.Kwargs "pm") files).1
        (fd.FindJavaClassDirs files) := by rw [hm]; exact List.mem_cons_self _ _
    have hmem2 := (mem_MapFilesToDir_iff sep _ _ k v).mp hmem
    obtain ⟨c, hc⟩ := List.exists_mem_of_ne_nil v hmem2.2
    have hl : Lists (MapFilesToDir sep (findRoots fd (cfg.Kwargs "pm") files).1
        (fd.FindJavaClassDirs files)) k c := ⟨v, hmem, hc⟩
    obtain ⟨hcf, ho⟩ := (lists_iff sep _ _ k c).mp hl
    obtain ⟨pre, post, hdirs, hpos, _, _⟩ := ownerDir_eq_some sep _ c k ho
    rcases h with h | h | h
    · rw [h] at hdirs; simp at hdirs
    · rw [h] at hcf; simp at hcf
    · exact h c hcf k (by rw [hdirs]; simp) ((sepMatch_pos_iff sep k c).mp hpos)

/-- C10: for a strategy with a configuration whose `pm` option is not "gradle",
an absent or empty value included, `Invoke` returns a nil error and one job
per entry of `MapFilesToDir` applied to the roots of the Maven root finder and
the class directories, each with the entry's root as working directory and
`GCDPath` of its class directories as single target; so does `Invoke` with
`pm` set to "maven" on the same files, and the working directories and
targets of the two results are the same up to the order in which the two calls
visit the mapping, and equal when they visit it in the same order. -/
theorem Invoke_unrecognized_pm_uses_maven (fd : FinderFns) (ro1 ro2 : RangeOrder)
    (sep : Nat) (cfg cfgM : Config) (files : List Path)
    (h : cfg.Kwargs "pm" ≠ gradle) (hM : cfgM.Kwargs "pm" = maven) :
    findRoots fd (cfg.Kwargs "pm") files = fd.FindMavenRoots files ∧
    Invoke fd ro1 sep (NewStrategy (some cfg) files) =
      some ((ro1.order (MapFilesToDir sep (fd.FindMavenRoots files).1
          (fd.FindJavaClassDirs files))).map
        (fun e => NewJob e.1 [GCDPath sep e.2] (some cfg)), none) ∧
    Invoke fd ro2 sep (NewStrategy (some cfgM) files) =
      some ((ro2.order (MapFilesToDir sep (fd.FindMavenRoots files).1
          (fd.FindJavaClassDirs files))).map
        (fun e => NewJob e.1 [GCDPath sep e.2] (some cfgM)), none) ∧
    ∀ (jobs jobsM : List Job) (err errM : Option String),
      Invoke fd ro1 sep (NewStrategy (some cfg) files) = some (jobs, err) →
      Invoke fd ro2 sep (NewStrategy (some cfgM) files) = some (jobsM, errM) →
      err = none ∧ errM = none ∧
      jobs.map Job.dirAndFiles =
        (ro1.order (MapFilesToDir sep (fd.FindMavenRoots files).1
          (fd.FindJavaClassDirs files))).map (fun e => (e.1, [GCDPath sep e.2])) ∧
      (jobs.map Job.dirAndFiles).Perm (jobsM.map Job.dirAndFiles) ∧
      (ro1.order (MapFilesToDir sep (fd.FindMavenRoots files).1
            (fd.FindJavaClassDirs files)) =
          ro2.order (MapFilesToDir sep (fd.FindMavenRoots files).1
            (fd.FindJavaClassDirs files)) →
        jobs.map Job.dirAndFiles = jobsM.map Job.dirAndFiles) := by
  have h1 : findRoots fd (cfg.Kwargs "pm") files = fd.FindMavenRoots files := by
    unfold findRoots
    simp [h]
  have h2 : findRoots fd (cfgM.Kwargs "pm") files = fd.FindMavenRoots files := by
    unfold findRoots
    rw [hM]
    simp [maven, gradle]
  have e1 : Invoke fd ro1 sep (NewStrategy (some cfg) files) =
      some ((ro1.order (MapFilesToDir sep (fd.FindMavenRoots files).1
          (fd.FindJavaClassDirs files))).map
        (fun e => NewJob e.1 [GCDPath sep e.2] (some cfg)), none) := by
    rw [Invoke_some]
    unfold rootClassMapping
    rw [h1]
  have e2 : Invoke fd ro2 sep (NewStrategy (some cfgM) files) =
      some ((ro2.order (MapFilesToDir sep (fd.FindMavenRoots files).1
          (fd.FindJavaClassDirs files))).map
        (fun e => NewJob e.1 [GCDPath sep e.2] (some cfgM)), none) := by
    rw [Invoke_some]
    unfold rootClassMapping
    rw [h2]
  refine ⟨h1, e1, e2, ?_⟩
  intro jobs jobsM err errM hj hjM
  rw [e1] at hj
  rw [e2] at hjM
  simp only [Option.some.injEq, Prod.mk.injEq] at hj hjM
  obtain ⟨hj1, hj2⟩ := hj
  obtain ⟨hjM1, hjM2⟩ := hjM
  subst hj1
  subst hjM1
  refine ⟨hj2.symm, hjM2.symm, ?_, ?_, ?_⟩
  · rw [List.map_map]
    rfl
  · rw [List.map_map, List.map_map]
    have hp : (ro1.order (MapFilesToDir sep (fd.FindMavenRoots files).1
        (fd.FindJavaClassDirs files))).Perm
        (ro2.order (MapFilesToDir sep (fd.FindMavenRoots files).1
          (fd.FindJavaClassDirs files))) :=
      (ro1.perm _).trans (ro2.perm _).symm
    exact hp.map _
  · intro he
    rw [he, List.map_map, List.map_map]
    rfl

/-- C10 at the configuration of the strategy tests, which has no `pm` option,
compared with `pm = "maven"`, for a finder whose Maven and Gradle roots
differ: both calls return the jobs of the two Maven roots, in the order the
mapping is visited, and `pm = "gradle"` returns the job of the Gradle root. -/
theorem Invoke_unrecognized_pm_uses_maven_witness :
    noPmConfig.Kwargs "pm" ≠ gradle ∧
    (pmConfig "maven").Kwargs "pm" = maven ∧
    Invoke mavenGradleFinder insertionOrder slash (NewStrategy (some noPmConfig) []) =
      some ([NewJob (str "m/pom.xml") [str "m/"] (some noPmConfig),
        NewJob (str "n/pom.xml") [str "n/"] (some noPmConfig)], none) ∧
    Invoke mavenGradleFinder reverseOrder slash (NewStrategy (some (pmConfig "maven")) []) =
      some ([NewJob (str "n/pom.xml") [str "n/"] (some (pmConfig "maven")),
        NewJob (str "m/pom.xml") [str "m/"] (some (pmConfig "maven"))], none) ∧
    Invoke mavenGradleFinder insertionOrder slash (NewStrategy (some (pmConfig "gradle")) []) =
      some ([NewJob (str "g/build.gradle") [str "g/"] (some (pmConfig "gradle"))], none) ∧
    (findRoots mavenGradleFinder (noPmConfig.Kwargs "pm") [] =
        mavenGradleFinder.FindMavenRoots [] ∧
      Invoke mavenGradleFinder insertionOrder slash (NewStrategy (some noPmConfig) []) =
        some ((insertionOrder.order (MapFilesToDir slash (mavenGradleFinder.FindMavenRoots []).1
            (mavenGradleFinder.FindJavaClassDirs []))).map
          (fun e => NewJob e.1 [GCDPath slash e.2] (some noPmConfig)), none) ∧
      Invoke mavenGradleFinder reverseOrder slash (NewStrategy (some (pmConfig "maven")) []) =
        some ((reverseOrder.order (MapFilesToDir slash (mavenGradleFinder.FindMavenRoots []).1
            (mavenGradleFinder.FindJavaClassDirs []))).map
          (fun e => NewJob e.1 [GCDPath slash e.2] (some (pmConfig "maven"))), none) ∧
      ∀ (jobs jobsM : List Job) (err errM : Option String),
        Invoke mavenGradleFinder insertionOrder slash (NewStrategy (some noPmConfig) []) =
          some (jobs, err) →
        Invoke mavenGradleFinder reverseOrder slash
          (NewStrategy (some (pmConfig "maven")) []) = some (jobsM, errM) →
        err = none ∧ errM = none ∧
        jobs.map Job.dirAndFiles =
          (insertionOrder.order (MapFilesToDir slash (mavenGradleFinder.FindMavenRoots []).1
            (mavenGradleFinder.FindJavaClassDirs []))).map
              (fun e => (e.1, [GCDPath slash e.2])) ∧
        (jobs.map Job.dirAndFiles).Perm (jobsM.map Job.dirAndFiles) ∧
        (insertionOrder.order (MapFilesToDir slash (mavenGradleFinder.FindMavenRoots []).1
              (mavenGradleFinder.FindJavaClassDirs [])) =
            reverseOrder.order (MapFilesToDir slash (mavenGradleFinder.FindMavenRoots []).1
              (mavenGradleFinder.FindJavaClassDirs [])) →
          jobs.map Job.dirAndFiles = jobsM.map Job.dirAndFiles)) :=
  ⟨by decide, by decide, by decide, by decide, by decide,
    Invoke_unrecognized_pm_uses_maven mavenGradleFinder insertionOrder reverseOrder slash
      noPmConfig (pmConfig "maven") [] (by decide) (by decide)⟩

end Java

namespace Callgraph
open Finder Java

/-! ## The control loop of the scheduler -/

/-- The first loop of `Schedule` never blocks while the queue has room for the
remaining jobs: every job is queued, in order, each with a new spinner. -/
theorem enqueueLoop_spec {J : Type} :
    ∀ (rest : List J) (i : Nat) (queue : Chan QueueItem) (events : List SchedEvent),
      queue.buf.length + rest.length ≤ queue.cap →
      enqueueLoop rest i queue events =
        (some ⟨queue.buf ++ (List.range' i rest.length).map (fun k => ⟨k, k⟩),
            queue.cap, queue.closed⟩,
          events ++ (List.range' i rest.length).map SchedEvent.addSpinner) := by
  intro rest
  induction rest with
  | nil => intro i queue events _; simp [enqueueLoop]
  | cons j rest ih =>
    intro i queue events h
    simp only [List.length_cons] at h
    have hlt : queue.buf.length < queue.cap := by omega
    simp only [enqueueLoop, Chan.send, hlt, if_true]
    rw [ih]
    · simp [List.range'_succ]
    · simp only [List.length_append, List.length_singleton]
      omega

/-- The loop over an open queue handles the buffered items in order and then
blocks on the receive. -/
theorem rangeLoop_open {J : Type} (ops : JobOps J) (cap : Nat) :
    ∀ (items : List QueueItem) (n : Nat) (st : SchedState J), items.length < n →
      rangeLoop ops n ⟨items, cap, false⟩ st =
        (LoopEnd.blocks, items.foldl (fun acc item => loopBody ops item acc) st) := by
  intro items
  induction items with
  | nil =>
    intro n st h
    cases n with
    | zero => simp at h
    | succ n => simp [rangeLoop, Chan.recv]
  | cons item items ih =>
    intro n st h
    cases n with
    | zero => simp at h
    | succ n =>
      simp only [List.length_cons] at h
      simp only [rangeLoop, Chan.recv, List.foldl_cons]
      exact ih n _ (by omega)

theorem runAt_length_eq {J : Type} (ops : JobOps J) (done : List J) (j : J)
    (todo : List J) :
    runAt ops done.length (done ++ j :: todo) = done ++ ops.Run j :: todo := by
  induction done with
  | nil => simp [runAt]
  | cons d done ih => simp [runAt, ih]

theorem runCalls_append (a b : List SchedEvent) :
    runCalls (a ++ b) = runCalls a ++ runCalls b := by
  induction a with
  | nil => simp [runCalls]
  | cons e a ih => cases e <;> simp [runCalls, ih]

theorem runCalls_map_addSpinner (l : List Nat) :
    runCalls (l.map SchedEvent.addSpinner) = [] := by
  induction l with
  | nil => rfl
  | cons a l ih => simp [runCalls, ih]

theorem runCalls_finish {J : Type} (ops : JobOps J) (item : QueueItem) (jobs : List J) :
    runCalls [finish ops item jobs] = [] := by
  unfold finish
  cases jobs.get? item.job with
  | none => rfl
  | some j => by_cases h : ops.HasError j <;> simp [h, runCalls]

/-- The items of the jobs from position `done.length` on, handled in order:
every such job is run once, in order, and the others are left as they are. -/
theorem foldl_loopBody_spec {J : Type} (ops : JobOps J) :
    ∀ (todo done : List J) (events : List SchedEvent),
      ((List.range' done.length todo.length).map (fun k => (⟨k, k⟩ : QueueItem))).foldl
          (fun acc item => loopBody ops item acc) ⟨done ++ todo, events⟩ =
        ⟨done ++ todo.map ops.Run,
          ((List.range' done.length todo.length).map (fun k => (⟨k, k⟩ : QueueItem))).foldl
            (fun acc item => loopBody ops item acc) ⟨done ++ todo, events⟩ |>.events⟩ ∧
      runCalls (((List.range' done.length todo.length).map
          (fun k => (⟨k, k⟩ : QueueItem))).foldl
          (fun acc item => loopBody ops item acc) ⟨done ++ todo, events⟩).events =
        runCalls events ++ List.range' done.length todo.length := by
  intro todo
  induction todo with
  | nil => intro done events; simp
  | cons j todo ih =>
    intro done events
    have hlen : (done ++ [ops.Run j]).length = done.length + 1 := by simp
    have hbody : loopBody ops ⟨done.length, done.length⟩ ⟨done ++ j :: todo, events⟩ =
        ⟨(done ++ [ops.Run j]) ++ todo,
          events ++ [SchedEvent.goUpdateStatus done.length, SchedEvent.run done.length,
            finish ops ⟨done.length, done.length⟩ (done ++ ops.Run j :: todo)]⟩ := by
      simp [loopBody, runAt_length_eq]
    simp only [List.length_cons, List.range'_succ, List.map_cons, List.foldl_cons, hbody]
    obtain ⟨h1, h2⟩ := ih (done ++ [ops.Run j]) (events ++
      [SchedEvent.goUpdateStatus done.length, SchedEvent.run done.length,
        finish ops ⟨done.length, done.length⟩ (done ++ ops.Run j :: todo)])
    rw [hlen] at h1 h2
    refine ⟨?_, ?_⟩
    · rw [h1]
      simp
    · rw [h2, runCalls_append]
      have h3 : runCalls [SchedEvent.goUpdateStatus done.length, SchedEvent.run done.length,
          finish ops ⟨done.length, done.length⟩ (done ++ ops.Run j :: todo)] =
          [done.length] := by
        have := runCalls_finish ops ⟨done.length, done.length⟩ (done ++ ops.Run j :: todo)
        simp [runCalls, this]
      rw [h3]
      simp

/-- What `Schedule` does: it runs every job once, in input order, and then
blocks on the receive from its queue, which is empty and was never closed. -/
theorem Schedule_eq_blocked {J : Type} (ops : JobOps J) (jobs : List J) :
    ∃ events, Schedule ops jobs = SchedOutcome.blocked ⟨jobs.map ops.Run, events⟩ ∧
      runCalls events = List.range jobs.length := by
  have h1 := enqueueLoop_spec jobs 0 (Chan.make QueueItem jobs.length)
    [SchedEvent.spinnerStart] (by simp [Chan.make])
  have h3 := foldl_loopBody_spec ops jobs []
    ([SchedEvent.spinnerStart] ++ (List.range' 0 jobs.length).map SchedEvent.addSpinner)
  simp only [List.length_nil, List.nil_append] at h3
  obtain ⟨h3a, h3b⟩ := h3
  refine ⟨(((List.range' 0 jobs.length).map (fun k => (⟨k, k⟩ : QueueItem))).foldl
    (fun acc item => loopBody ops item acc) ⟨jobs, [SchedEvent.spinnerStart] ++
      (List.range' 0 jobs.length).map SchedEvent.addSpinner⟩).events, ?_, ?_⟩
  · unfold Schedule
    rw [h1]
    simp only [Chan.make, List.nil_append]
    rw [rangeLoop_open ops jobs.length _ (jobs.length + 1) _ (by simp)]
    simp only
    rw [h3a]
  · rw [h3b, runCalls_append, runCalls_map_addSpinner]
    simp [runCalls, List.range_eq_range']

/-! ## The claims about the scheduler -/

/-- C11 fails on the code: for every list of jobs, the empty list included,
`Schedule` does not return; once every job is run it blocks on the receive
from its queue, which is empty and which nothing closes. -/
theorem Schedule_never_returns {J : Type} (ops : JobOps J) (jobs : List J) :
    (∀ generation err, Schedule ops jobs ≠ SchedOutcome.returned generation err) ∧
    (∃ st, Schedule ops jobs = SchedOutcome.blocked st ∧ st.jobs.length = jobs.length) ∧
    Schedule mockOps [] = SchedOutcome.blocked ⟨[], [SchedEvent.spinnerStart]⟩ := by
  obtain ⟨events, h, _⟩ := Schedule_eq_blocked ops jobs
  refine ⟨?_, ⟨_, h, by simp⟩, by decide⟩
  intro generation err hr
  rw [h] at hr
  cases hr

/-- C12 at the input of `TestScheduleJobErr`, one job mock with the error
"job-error": `Schedule` does not return; it blocks after the run of the job,
whose collector then holds exactly that error. -/
theorem Schedule_job_error_blocks :
    Schedule mockOps [(NewJobMock (str "dir") [str "file"]).SetErr "job-error"] =
      SchedOutcome.blocked
        ⟨[⟨str "dir", [str "file"], some "job-error", ⟨[(true, "job-error")]⟩⟩],
          [SchedEvent.spinnerStart, SchedEvent.addSpinner 0, SchedEvent.goUpdateStatus 0,
            SchedEvent.run 0, SchedEvent.spinnerError 0]⟩ ∧
    (Errors.mk [(true, "job-error")]).GetAll = ["job-error"] ∧
    ∀ generation err,
      Schedule mockOps [(NewJobMock (str "dir") [str "file"]).SetErr "job-error"] ≠
        SchedOutcome.returned generation err := by
  have h : Schedule mockOps [(NewJobMock (str "dir") [str "file"]).SetErr "job-error"] =
      SchedOutcome.blocked
        ⟨[⟨str "dir", [str "file"], some "job-error", ⟨[(true, "job-error")]⟩⟩],
          [SchedEvent.spinnerStart, SchedEvent.addSpinner 0, SchedEvent.goUpdateStatus 0,
            SchedEvent.run 0, SchedEvent.spinnerError 0]⟩ := by decide
  refine ⟨h, by decide, ?_⟩
  intro generation err hr
  rw [h] at hr
  cases hr

/-- C17, as stated, fails: the goroutine of `updateStatus` for a job that sends
the status "generating call graph" and finishes is blocked on the receive
from the status channel, and no number of iterations of its loop ends it. -/
theorem updateStatus_blocked_after_job :
    updateStatus false 5 [generatingStatus] none =
      ⟨Goroutine.blockedOnReceive, some generatingStatus⟩ ∧
    ¬ ∃ n, (updateStatus false n [generatingStatus] none).state = Goroutine.exited := by
  refine ⟨by decide, ?_⟩
  rintro ⟨n, hn⟩
  cases n with
  | zero => simp [updateStatus] at hn
  | succ n =>
    cases n with
    | zero => simp [updateStatus] at hn
    | succ n => simp [updateStatus] at hn

/-- C17, amended: the goroutine of `updateStatus` never ends, whatever its job
sends and whether or not the status channel is closed; with an open channel it
takes every message to its spinner and is then blocked on the receive. -/
theorem updateStatus_never_exits (closed : Bool) (n : Nat) (pending : List Path)
    (msg : Option Path) :
    (updateStatus closed n pending msg).state ≠ Goroutine.exited ∧
    updateStatus false (pending.length + 1 + n) pending msg =
      ⟨Goroutine.blockedOnReceive, (pending.getLast?).or msg⟩ := by
  constructor
  · induction n generalizing pending msg with
    | zero => simp [updateStatus]
    | succ n ih =>
      cases pending with
      | nil =>
        cases closed with
        | false => simp [updateStatus]
        | true => simpa [updateStatus] using ih [] (some [])
      | cons m rest => simpa [updateStatus] using ih rest (some m)
  · induction pending generalizing msg with
    | nil =>
      have : ([] : List Path).length + 1 + n = n + 1 := by simp; omega
      rw [this]
      simp [updateStatus]
    | cons m rest ih =>
      have : (m :: rest).length + 1 + n = (rest.length + 1 + n) + 1 := by
        simp only [List.length_cons]; omega
      rw [this]
      simp only [updateStatus]
      rw [ih (some m)]
      cases rest with
      | nil => simp
      | cons r rest2 =>
        simp [List.getLast?_cons_cons]
        cases h : (r :: rest2).getLast? with
        | none => simp at h
        | some x => simp

/-- C18: the control loop of `Schedule` calls `Run` on every job once, in input
order, whatever the jobs record: when it stops, the calls were made on the
positions 0 to n - 1 in this order and every job is the result of its run. -/
theorem Schedule_runs_jobs_in_order {J : Type} (ops : JobOps J) (jobs : List J) :
    ∃ st, Schedule ops jobs = SchedOutcome.blocked st ∧
      runCalls st.events = List.range jobs.length ∧
      st.jobs = jobs.map ops.Run := by
  obtain ⟨events, h, hr⟩ := Schedule_eq_blocked ops jobs
  exact ⟨_, h, hr, rfl⟩

/-- C18 at two job mocks of which the first records an error: both are run, the
first before the second. -/
theorem Schedule_runs_jobs_in_order_witness :
    ∃ st, Schedule mockOps [(NewJobMock (str "dir") [str "a"]).SetErr "job-error",
          NewJobMock (str "dir") [str "b"]] = SchedOutcome.blocked st ∧
      runCalls st.events = List.range 2 ∧
      st.jobs = [((NewJobMock (str "dir") [str "a"]).SetErr "job-error").Run,
        (NewJobMock (str "dir") [str "b"]).Run] :=
  Schedule_runs_jobs_in_order mockOps [(NewJobMock (str "dir") [str "a"]).SetErr "job-error",
    NewJobMock (str "dir") [str "b"]]

/-! ## The claims about the generator -/

theorem generateLoop_ok {C S J : Type} (env : GenEnv C S J) (files : List Path) :
    ∀ (configs : List C) (jobs : List J),
      (∀ c ∈ configs, invokeFails env files c = none) →
      generateLoop env files configs jobs =
        Except.ok (jobs ++ configs.flatMap (jobsOfConfig env files)) := by
  intro configs
  induction configs with
  | nil => intro jobs _; simp [generateLoop]
  | cons c rest ih =>
    intro jobs h
    have hc := h c (List.mem_cons_self _ _)
    have hrest : ∀ x ∈ rest, invokeFails env files x = none :=
      fun x hx => h x (List.mem_cons_of_mem _ hx)
    unfold invokeFails at hc
    simp only [generateLoop, List.flatMap_cons, jobsOfConfig]
    cases hm : env.Make c files with
    | error e => simpa using ih jobs hrest
    | ok st =>
      rw [hm] at hc
      simp only at hc ⊢
      cases hi : env.Invoke st with
      | mk newJobs err =>
        rw [hi] at hc
        simp only at hc
        subst hc
        simp only
        rw [ih _ hrest]
        simp

theorem generateLoop_error {C S J : Type} (env : GenEnv C S J) (files : List Path) :
    ∀ (pre : List C) (c : C) (post : List C) (err : String) (jobs : List J),
      (∀ x ∈ pre, invokeFails env files x = none) →
      invokeFails env files c = some err →
      generateLoop env files (pre ++ c :: post) jobs = Except.error err := by
  intro pre
  induction pre with
  | nil =>
    intro c post err jobs _ hc
    unfold invokeFails at hc
    simp only [List.nil_append, generateLoop]
    cases hm : env.Make c files with
    | error e => rw [hm] at hc; simp at hc
    | ok st =>
      rw [hm] at hc
      simp only at hc ⊢
      cases hi : env.Invoke st with
      | mk newJobs e2 =>
        rw [hi] at hc
        simp only at hc
        subst hc
        rfl
  | cons p pre ih =>
    intro c post err jobs h hc
    have hp := h p (List.mem_cons_self _ _)
    have hrest : ∀ x ∈ pre, invokeFails env files x = none :=
      fun x hx => h x (List.mem_cons_of_mem _ hx)
    unfold invokeFails at hp
    simp only [List.cons_append, generateLoop]
    cases hm : env.Make p files with
    | error e => exact ih c post err jobs hrest hc
    | ok st =>
      rw [hm] at hp
      simp only at hp ⊢
      cases hi : env.Invoke st with
      | mk newJobs e2 =>
        rw [hi] at hp
        simp only at hp
        subst hp
        exact ih c post err _ hrest hc

/-- C13 fails on the code in the timeout case: `GenerateWithTimer` calls
`runtime.Goexit()` before the `return` of the error, so its goroutine ends and
no error is returned; when `status` is received first it returns nil. -/
theorem GenerateWithTimer_timeout_goexit :
    GenerateWithTimer SelectCase.timeout = TimerOutcome.goexit ∧
    (∀ err, GenerateWithTimer SelectCase.timeout ≠ TimerOutcome.returned err) ∧
    GenerateWithTimer SelectCase.status = TimerOutcome.returned none := by
  refine ⟨rfl, ?_, rfl⟩
  intro err h
  cases h

/-- C16, as stated, fails: of two configurations, when `Invoke` fails for the
first, `Generate` returns that error, does not call the scheduler and so does
not pass it the job of the second configuration. -/
theorem Generate_invoke_error_aborts :
    (Generate failingInvokeEnv [] [0, 1]).scheduled = none ∧
    (Generate failingInvokeEnv [] [0, 1]).outcome =
      GenOutcome.returned none (some "invoke failed") ∧
    invokeFails failingInvokeEnv [] 1 = none ∧
    jobsOfConfig failingInvokeEnv [] 1 = [7] := by
  decide

/-- C16, amended: a configuration for which the factory fails contributes no
job and does not stop the loop; when no `Invoke` fails, the jobs passed to the
scheduler are the jobs of the configurations, in their order; the first
`Invoke` that fails ends `Generate`, which returns its error without a call
of the scheduler. -/
theorem Generate_jobs_passed_to_scheduler {C S J : Type} (env : GenEnv C S J)
    (files : List Path) (configs : List C) :
    ((∀ c ∈ configs, invokeFails env files c = none) →
      (Generate env files configs).scheduled =
        some (configs.flatMap (jobsOfConfig env files))) ∧
    (∀ c, (∃ e, env.Make c files = Except.error e) →
      jobsOfConfig env files c = [] ∧ invokeFails env files c = none) ∧
    (∀ pre c post err, configs = pre ++ c :: post →
      (∀ x ∈ pre, invokeFails env files x = none) →
      invokeFails env files c = some err →
      (Generate env files configs).scheduled = none ∧
      (Generate env files configs).outcome = GenOutcome.returned none (some err)) := by
  refine ⟨?_, ?_, ?_⟩
  · intro h
    unfold Generate
    rw [generateLoop_ok env files configs [] h]
    simp only [List.nil_append]
    cases env.Schedule (configs.flatMap (jobsOfConfig env files)) <;> rfl
  · rintro c ⟨e, he⟩
    simp [jobsOfConfig, invokeFails, he]
  · intro pre c post err hcfg hpre hc
    subst hcfg
    unfold Generate
    rw [generateLoop_error env files pre c post err [] hpre hc]
    exact ⟨rfl, rfl⟩

/-- C16, amended, at three configurations of which the factory fails for the
second: the scheduler gets the jobs of the first and of the third. -/
theorem Generate_jobs_passed_to_scheduler_witness :
    (∀ c ∈ [0, 1, 2], invokeFails failingMakeEnv [] c = none) ∧
    (Generate failingMakeEnv [] [0, 1, 2]).scheduled = some [10, 11, 30] :=
  ⟨by decide,
    (Generate_jobs_passed_to_scheduler failingMakeEnv [] [0, 1, 2]).1 (by decide)⟩

end Callgraph

namespace Java
open Finder

/-! ## Job.Run -/

theorem copyingStatus_ne_generatingStatus (targetDir : Path) :
    copyingStatus targetDir ≠ generatingStatus := by
  intro h
  have h1 : (copyingStatus targetDir).head? = some 99 := rfl
  have h2 : generatingStatus.head? = some 103 := rfl
  rw [h, h2] at h1
  exact absurd h1 (by decide)

theorem stagingCmd_events_not_analysis (env : RunEnv) (pm : String)
    (workingDirectory targetDir : Path) :
    ∀ ev ∈ (stagingCmd env pm workingDirectory targetDir).1, ev.isAnalysis = false := by
  intro ev hev
  unfold stagingCmd at hev
  by_cases h : pm = gradle
  · simp only [h, if_true, List.mem_cons, List.mem_singleton] at hev
    rcases hev with hev | hev | hev
    · subst hev; rfl
    · subst hev; rfl
    · simp at hev
  · simp only [h, if_false, List.mem_singleton] at hev
    subst hev; rfl

theorem stagingCmd_make_events (env : RunEnv) (pm : String)
    (workingDirectory targetDir : Path) :
    (pm = gradle → ∃ gradlew groovyFilePath,
      (stagingCmd env pm workingDirectory targetDir).1.filter Event.isStagingMake =
        [Event.makeGradleCmd workingDirectory gradlew groovyFilePath]) ∧
    (pm ≠ gradle →
      (stagingCmd env pm workingDirectory targetDir).1.filter Event.isStagingMake =
        [Event.makeMvnCmd workingDirectory targetDir]) := by
  constructor
  · intro h
    refine ⟨if IsExist (env.stat (env.join workingDirectory (str "gradlew"))) then
        env.join workingDirectory (str "gradlew") else str "gradle",
      env.join workingDirectory (str ".debrickedGroovyScript.groovy"), ?_⟩
    simp only [stagingCmd, h, if_true]
    rfl
  · intro h
    simp only [stagingCmd, h, if_false]
    rfl

theorem runCallGraphWithSetup_events (env : RunEnv)
    (workingDirectory targetClasses targetDir : Path) :
    ∀ ev ∈ (runCallGraphWithSetup env workingDirectory targetClasses targetDir).1,
      ev.isAnalysis = true ∧ ev.isStaging = false ∧ ev.isStagingMake = false := by
  intro ev hev
  unfold runCallGraphWithSetup at hev
  cases h1 : env.openJar with
  | some e => rw [h1] at hev; simp at hev
  | none =>
    rw [h1] at hev
    simp only at hev
    cases h2 : env.mkdirTemp with
    | mk tempDir e2 =>
      rw [h2] at hev
      cases e2 with
      | some e => simp at hev
      | none =>
        simp only at hev
        cases h3 : env.readAll with
        | some e => rw [h3] at hev; simp at hev
        | none =>
          rw [h3] at hev
          simp only at hev
          cases h4 : env.writeFile (env.join tempDir (str "SootWrapper.jar")) with
          | some e => rw [h4] at hev; simp at hev
          | none =>
            rw [h4] at hev
            simp only at hev
            unfold runCallGraph at hev
            cases h5 : env.MakeCallGraphGenerationCmd (env.join tempDir (str "SootWrapper.jar"))
                workingDirectory targetClasses targetDir with
            | mk osCmd e5 =>
              rw [h5] at hev
              cases e5 with
              | some e =>
                simp only [List.mem_singleton] at hev
                subst hev
                exact ⟨rfl, rfl, rfl⟩
              | none =>
                simp only [List.mem_cons, List.mem_singleton] at hev
                rcases hev with hev | hev | hev
                · subst hev; exact ⟨rfl, rfl, rfl⟩
                · subst hev; exact ⟨rfl, rfl, rfl⟩
                · simp at hev

/-- The events of the analysis: the status "generating call graph", then the
events of `runCallGraphWithSetup`. -/
theorem analysis_events (env : RunEnv) (workingDirectory targetClasses targetDir : Path)
    (st : RunState) :
    (analysis env workingDirectory targetClasses targetDir st).events =
      st.events ++ Event.sendStatus generatingStatus ::
        (runCallGraphWithSetup env workingDirectory targetClasses targetDir).1 := by
  unfold analysis
  cases h : runCallGraphWithSetup env workingDirectory targetClasses targetDir with
  | mk evs err => cases err <;> rfl

/-- With a target and a configuration, `Run` returns: after a failed staging,
or after the analysis. -/
theorem Run_eq (env : RunEnv) (dir t : Path) (ts : List Path) (cfg : Config)
    (st : RunState) :
    Run env (NewJob dir (t :: ts) (some cfg)) st =
      if IsNotExist (env.stat (env.join dir (str ".debrickedTmpFolder"))) then
        if (staging env (cfg.Kwargs "pm") dir (env.join dir (str ".debrickedTmpFolder")) st).2
        then RunOutcome.done (analysis env dir t (env.join dir (str ".debrickedTmpFolder"))
          (staging env (cfg.Kwargs "pm") dir (env.join dir (str ".debrickedTmpFolder")) st).1)
        else RunOutcome.done
          (staging env (cfg.Kwargs "pm") dir (env.join dir (str ".debrickedTmpFolder")) st).1
      else RunOutcome.done (analysis env dir t (env.join dir (str ".debrickedTmpFolder")) st) := by
  simp only [Run, NewJob, Job.GetFiles, Job.GetDir]
  split
  · cases h : staging env (cfg.Kwargs "pm") dir (env.join dir (str ".debrickedTmpFolder")) st with
    | mk st1 ok => cases ok <;> simp
  · rfl

theorem Run_done (env : RunEnv) (dir t : Path) (ts : List Path) (cfg : Config)
    (st : RunState) :
    ∃ out, Run env (NewJob dir (t :: ts) (some cfg)) st = RunOutcome.done out := by
  rw [Run_eq]
  split
  · split
    · exact ⟨_, rfl⟩
    · exact ⟨_, rfl⟩
  · exact ⟨_, rfl⟩

/-- What the staging block does, by the error of the command factory and the
error of the run of the command. -/
theorem staging_eq (env : RunEnv) (pm : String) (dir targetDir : Path) (st : RunState) :
    staging env pm dir targetDir st =
      match (stagingCmd env pm dir targetDir).2.2 with
      | some err =>
        (⟨st.errors.Critical err, st.events ++ ((stagingCmd env pm dir targetDir).1 ++
          [Event.sendStatus (copyingStatus targetDir)])⟩, false)
      | none =>
        match env.output (stagingCmd env pm dir targetDir).2.1 with
        | some err =>
          (⟨st.errors.Critical err, st.events ++ ((stagingCmd env pm dir targetDir).1 ++
            [Event.sendStatus (copyingStatus targetDir),
              Event.cmdOutput (stagingCmd env pm dir targetDir).2.1])⟩, false)
        | none =>
          (⟨st.errors, st.events ++ ((stagingCmd env pm dir targetDir).1 ++
            [Event.sendStatus (copyingStatus targetDir),
              Event.cmdOutput (stagingCmd env pm dir targetDir).2.1])⟩, true) := by
  unfold staging
  cases h : stagingCmd env pm dir targetDir with
  | mk evs rest =>
    cases rest with
    | mk cmd err =>
      cases err with
      | some e => simp
      | none =>
        simp only
        cases env.output cmd <;> simp

theorem mem_pre_of_split (X A pre post : List Event) (ev x : Event) (hx : x ∈ X)
    (hX : ∀ e ∈ X, e.isAnalysis = false) (h : X ++ A = pre ++ ev :: post)
    (hev : ev.isAnalysis = true) : x ∈ pre := by
  rcases List.append_eq_append_iff.mp h with ⟨a, ha, _⟩ | ⟨c, hc, hc2⟩
  · rw [ha]; exact List.mem_append_left _ hx
  · cases c with
    | nil =>
      have : X = pre := by simpa using hc
      rw [← this]; exact hx
    | cons c0 c =>
      have h0 : ev = c0 := by
        have := hc2
        simp only [List.cons_append, List.cons.injEq] at this
        exact this.1
      have hmem : ev ∈ X := by
        rw [hc, h0]
        exact List.mem_append_right _ (List.mem_cons_self _ _)
      have := hX ev hmem
      rw [this] at hev
      exact absurd hev (by simp)

theorem staging_events_not_analysis (env : RunEnv) (pm : String) (dir targetDir : Path)
    (tailEvents : List Event) (htail : ∀ ev ∈ tailEvents, ev.isAnalysis = false) :
    ∀ ev ∈ (stagingCmd env pm dir targetDir).1 ++ tailEvents, ev.isAnalysis = false := by
  intro ev hev
  rcases List.mem_append.mp hev with hev | hev
  · exact stagingCmd_events_not_analysis env pm dir targetDir ev hev
  · exact htail ev hev

theorem filter_isStagingMake_append (evs tailEvents : List Event)
    (htail : ∀ ev ∈ tailEvents, ev.isStagingMake = false) :
    (evs ++ tailEvents).filter Event.isStagingMake = evs.filter Event.isStagingMake := by
  rw [List.filter_append]
  have : tailEvents.filter Event.isStagingMake = [] := by
    rw [List.filter_eq_nil_iff]
    intro a ha
    rw [htail a ha]
    simp
  rw [this, List.append_nil]

/-! ## The claims about Job.Run -/

/-- C14: when the staging directory does not exist and the staging command
fails, in its construction or in its run, with the error `e`, `Run` returns
normally, the job's collector has `e` added as a critical error and
`HasError` holds, and nothing of the analysis happens: no status "generating
call graph", no analysis command. -/
theorem Run_staging_failure_recorded (env : RunEnv) (dir t : Path) (ts : List Path)
    (cfg : Config) (st : RunState) (e : String)
    (hne : IsNotExist (env.stat (env.join dir (str ".debrickedTmpFolder"))) = true)
    (hfail :
      (stagingCmd env (cfg.Kwargs "pm") dir
        (env.join dir (str ".debrickedTmpFolder"))).2.2 = some e ∨
      ((stagingCmd env (cfg.Kwargs "pm") dir
        (env.join dir (str ".debrickedTmpFolder"))).2.2 = none ∧
       env.output (stagingCmd env (cfg.Kwargs "pm") dir
        (env.join dir (str ".debrickedTmpFolder"))).2.1 = some e)) :
    ∃ evs, Run env (NewJob dir (t :: ts) (some cfg)) st =
        RunOutcome.done ⟨st.errors.Critical e, st.events ++ evs⟩ ∧
      (st.errors.Critical e).HasError = true ∧
      (st.errors.Critical e).GetAll = st.errors.GetAll ++ [e] ∧
      ∀ ev ∈ evs, ev.isAnalysis = false := by
  have hcrit : (st.errors.Critical e).HasError = true := by
    simp [Errors.Critical, Errors.HasError]
  have hall : (st.errors.Critical e).GetAll = st.errors.GetAll ++ [e] := by
    simp [Errors.Critical, Errors.GetAll]
  have hcopy : (Event.sendStatus (copyingStatus
      (env.join dir (str ".debrickedTmpFolder")))).isAnalysis = false := by
    simp [Event.isAnalysis, copyingStatus_ne_generatingStatus]
  have hst := stagingCmd_events_not_analysis env (cfg.Kwargs "pm") dir
    (env.join dir (str ".debrickedTmpFolder"))
  rw [Run_eq, hne, staging_eq]
  rcases hfail with h | ⟨h1, h2⟩
  · rw [h]
    refine ⟨_, rfl, hcrit, hall, ?_⟩
    intro ev hev
    rcases List.mem_append.mp hev with hev | hev
    · exact hst ev hev
    · rw [List.mem_singleton] at hev
      subst hev; exact hcopy
  · rw [h1]
    simp only
    rw [h2]
    refine ⟨_, rfl, hcrit, hall, ?_⟩
    intro ev hev
    rcases List.mem_append.mp hev with hev | hev
    · exact hst ev hev
    · simp only [List.mem_cons, List.mem_singleton] at hev
      rcases hev with hev | hev | hev
      · subst hev; exact hcopy
      · subst hev; rfl
      · simp at hev

/-- C14 at a Maven job whose staging command fails when it is run. -/
theorem Run_staging_failure_recorded_witness :
    IsNotExist (failingOutputEnv.stat
      (failingOutputEnv.join (str "/proj") (str ".debrickedTmpFolder"))) = true ∧
    ((stagingCmd failingOutputEnv ((pmConfig "maven").Kwargs "pm") (str "/proj")
        (failingOutputEnv.join (str "/proj") (str ".debrickedTmpFolder"))).2.2 =
          some "exit status 1" ∨
      ((stagingCmd failingOutputEnv ((pmConfig "maven").Kwargs "pm") (str "/proj")
        (failingOutputEnv.join (str "/proj") (str ".debrickedTmpFolder"))).2.2 = none ∧
       failingOutputEnv.output (stagingCmd failingOutputEnv ((pmConfig "maven").Kwargs "pm")
        (str "/proj") (failingOutputEnv.join (str "/proj")
          (str ".debrickedTmpFolder"))).2.1 = some "exit status 1")) ∧
    ∃ evs, Run failingOutputEnv (NewJob (str "/proj") (str "/proj/classes/" :: [])
          (some (pmConfig "maven"))) ⟨⟨[]⟩, []⟩ =
        RunOutcome.done ⟨(Errors.mk []).Critical "exit status 1", [] ++ evs⟩ ∧
      ((Errors.mk []).Critical "exit status 1").HasError = true ∧
      ((Errors.mk []).Critical "exit status 1").GetAll =
        (Errors.mk []).GetAll ++ ["exit status 1"] ∧
      ∀ ev ∈ evs, ev.isAnalysis = false :=
  ⟨by decide, Or.inr ⟨by decide, by decide⟩,
    Run_staging_failure_recorded failingOutputEnv (str "/proj") (str "/proj/classes/") []
      (pmConfig "maven") ⟨⟨[]⟩, []⟩ "exit status 1" (by decide)
      (Or.inr ⟨by decide, by decide⟩)⟩

/-- C15 fails on the code: for a Gradle job whose staging directory does not
exist and whose working directory holds the file `gradlew`, the command passed
to `MakeGradleCopyDependenciesCmd` is "gradle", not the wrapper; `os.IsExist`
does not hold of the nil error that `os.Stat` returns for a file that exists,
and whenever it does not hold the command is "gradle". -/
theorem Run_gradle_wrapper_present_not_used :
    (okEnv (fun f => decide (f = str "/proj/gradlew"))).stat (str "/proj/gradlew") = none ∧
    (Run (okEnv (fun f => decide (f = str "/proj/gradlew")))
        (NewJob (str "/proj") [str "/proj/build/"] (some (pmConfig "gradle")))
        ⟨⟨[]⟩, []⟩).events.filter Event.isStagingMake =
      [Event.makeGradleCmd (str "/proj") (str "gradle")
        (str "/proj/.debrickedGroovyScript.groovy")] ∧
    IsExist none = false ∧
    ∀ (env : RunEnv) (workingDirectory targetDir : Path),
      IsExist (env.stat (env.join workingDirectory (str "gradlew"))) = false →
      (stagingCmd env gradle workingDirectory targetDir).1 =
        [Event.writeInitFile (env.join workingDirectory (str ".debrickedGroovyScript.groovy")),
          Event.makeGradleCmd workingDirectory (str "gradle")
            (env.join workingDirectory (str ".debrickedGroovyScript.groovy"))] := by
  refine ⟨by decide, by decide, rfl, ?_⟩
  intro env workingDirectory targetDir h
  simp [stagingCmd, h]

/-- C19: when the check of the staging directory does not report "not exist",
`Run` constructs and runs no staging command and goes on with the status
"generating call graph" and the analysis; when it does, `Run` constructs
exactly one staging command, the Gradle one if `pm` is "gradle" and the Maven
one otherwise, and the analysis takes place exactly when that command was
constructed and run without error, after its run. -/
theorem Run_stages_only_when_missing (env : RunEnv) (dir t : Path) (ts : List Path)
    (cfg : Config) (st : RunState) :
    (IsNotExist (env.stat (env.join dir (str ".debrickedTmpFolder"))) = false →
      ∃ evs, Run env (NewJob dir (t :: ts) (some cfg)) st =
          RunOutcome.done (analysis env dir t (env.join dir (str ".debrickedTmpFolder")) st) ∧
        (Run env (NewJob dir (t :: ts) (some cfg)) st).events =
          st.events ++ Event.sendStatus generatingStatus :: evs ∧
        ∀ ev ∈ Event.sendStatus generatingStatus :: evs,
          ev.isStaging = false ∧ ev.isStagingMake = false) ∧
    (IsNotExist (env.stat (env.join dir (str ".debrickedTmpFolder"))) = true →
      ∃ out evs, Run env (NewJob dir (t :: ts) (some cfg)) st = RunOutcome.done out ∧
        out.events = st.events ++ evs ∧
        (cfg.Kwargs "pm" = gradle → ∃ gradlew groovyFilePath,
          evs.filter Event.isStagingMake =
            [Event.makeGradleCmd dir gradlew groovyFilePath]) ∧
        (cfg.Kwargs "pm" ≠ gradle →
          evs.filter Event.isStagingMake =
            [Event.makeMvnCmd dir (env.join dir (str ".debrickedTmpFolder"))]) ∧
        ((∃ ev ∈ evs, ev.isAnalysis = true) ↔
          ((stagingCmd env (cfg.Kwargs "pm") dir
              (env.join dir (str ".debrickedTmpFolder"))).2.2 = none ∧
            env.output (stagingCmd env (cfg.Kwargs "pm") dir
              (env.join dir (str ".debrickedTmpFolder"))).2.1 = none)) ∧
        ∀ pre ev post, evs = pre ++ ev :: post → ev.isAnalysis = true →
          Event.cmdOutput (stagingCmd env (cfg.Kwargs "pm") dir
            (env.join dir (str ".debrickedTmpFolder"))).2.1 ∈ pre) := by
  have hcopyA : (Event.sendStatus (copyingStatus
      (env.join dir (str ".debrickedTmpFolder")))).isAnalysis = false := by
    simp [Event.isAnalysis, copyingStatus_ne_generatingStatus]
  have hgenA : (Event.sendStatus generatingStatus).isAnalysis = true := by
    simp [Event.isAnalysis]
  have hmake := stagingCmd_make_events env (cfg.Kwargs "pm") dir
    (env.join dir (str ".debrickedTmpFolder"))
  have hcg := runCallGraphWithSetup_events env dir t (env.join dir (str ".debrickedTmpFolder"))
  constructor
  · intro hne
    refine ⟨(runCallGraphWithSetup env dir t (env.join dir (str ".debrickedTmpFolder"))).1,
      ?_, ?_, ?_⟩
    · rw [Run_eq, hne]; rfl
    · rw [Run_eq, hne]
      exact analysis_events env dir t _ st
    · intro ev hev
      rcases List.mem_cons.mp hev with hev | hev
      · subst hev; exact ⟨rfl, rfl⟩
      · exact ⟨(hcg ev hev).2.1, (hcg ev hev).2.2⟩
  · intro hne
    rw [Run_eq, hne, staging_eq]
    cases herr : (stagingCmd env (cfg.Kwargs "pm") dir
        (env.join dir (str ".debrickedTmpFolder"))).2.2 with
    | some e =>
      have htail : ∀ ev ∈ [Event.sendStatus (copyingStatus
          (env.join dir (str ".debrickedTmpFolder")))], ev.isAnalysis = false := by
        intro ev hev
        rw [List.mem_singleton] at hev
        subst hev; exact hcopyA
      have hno := staging_events_not_analysis env (cfg.Kwargs "pm") dir
        (env.join dir (str ".debrickedTmpFolder")) _ htail
      have hfil := filter_isStagingMake_append (stagingCmd env (cfg.Kwargs "pm") dir
        (env.join dir (str ".debrickedTmpFolder"))).1 [Event.sendStatus (copyingStatus
          (env.join dir (str ".debrickedTmpFolder")))] (by
            intro ev hev
            rw [List.mem_singleton] at hev
            subst hev; rfl)
      refine ⟨_, _, rfl, rfl, ?_, ?_, ?_, ?_⟩
      · intro hg; rw [hfil]; exact hmake.1 hg
      · intro hg; rw [hfil]; exact hmake.2 hg
      · constructor
        · rintro ⟨ev, hev, ha⟩
          rw [hno ev hev] at ha
          exact absurd ha (by simp)
        · rintro ⟨h1, _⟩
          exact absurd h1 (by simp)
      · intro pre ev post hsplit ha
        have hmem : ev ∈ (stagingCmd env (cfg.Kwargs "pm") dir
            (env.join dir (str ".debrickedTmpFolder"))).1 ++ [Event.sendStatus (copyingStatus
              (env.join dir (str ".debrickedTmpFolder")))] := by
          rw [hsplit]; exact List.mem_append_right _ (List.mem_cons_self _ _)
        rw [hno ev hmem] at ha
        exact absurd ha (by simp)
    | none =>
      simp only
      have htail : ∀ ev ∈ [Event.sendStatus (copyingStatus
          (env.join dir (str ".debrickedTmpFolder"))),
          Event.cmdOutput (stagingCmd env (cfg.Kwargs "pm") dir
            (env.join dir (str ".debrickedTmpFolder"))).2.1], ev.isAnalysis = false := by
        intro ev hev
        simp only [List.mem_cons, List.mem_singleton] at hev
        rcases hev with hev | hev | hev
        · subst hev; exact hcopyA
        · subst hev; rfl
        · simp at hev
      have hno := staging_events_not_analysis env (cfg.Kwargs "pm") dir
        (env.join dir (str ".debrickedTmpFolder")) _ htail
      have htailM : ∀ ev ∈ [Event.sendStatus (copyingStatus
          (env.join dir (str ".debrickedTmpFolder"))),
          Event.cmdOutput (stagingCmd env (cfg.Kwargs "pm") dir
            (env.join dir (str ".debrickedTmpFolder"))).2.1], ev.isStagingMake = false := by
        intro ev hev
        simp only [List.mem_cons, List.mem_singleton] at hev
        rcases hev with hev | hev | hev
        · subst hev; rfl
        · subst hev; rfl
        · simp at hev
      have hfil := filter_isStagingMake_append (stagingCmd env (cfg.Kwargs "pm") dir
        (env.join dir (str ".debrickedTmpFolder"))).1 _ htailM
      cases hout : env.output (stagingCmd env (cfg.Kwargs "pm") dir
          (env.join dir (str ".debrickedTmpFolder"))).2.1 with
      | some e =>
        refine ⟨_, _, rfl, rfl, ?_, ?_, ?_, ?_⟩
        · intro hg; rw [hfil]; exact hmake.1 hg
        · intro hg; rw [hfil]; exact hmake.2 hg
        · constructor
          · rintro ⟨ev, hev, ha⟩
            rw [hno ev hev] at ha
            exact absurd ha (by simp)
          · rintro ⟨_, h2⟩
            exact absurd h2 (by simp)
        · intro pre ev post hsplit ha
          have hmem : ev ∈ (stagingCmd env (cfg.Kwargs "pm") dir
              (env.join dir (str ".debrickedTmpFolder"))).1 ++
              [Event.sendStatus (copyingStatus (env.join dir (str ".debrickedTmpFolder"))),
                Event.cmdOutput (stagingCmd env (cfg.Kwargs "pm") dir
                  (env.join dir (str ".debrickedTmpFolder"))).2.1] := by
            rw [hsplit]; exact List.mem_append_right _ (List.mem_cons_self _ _)
          rw [hno ev hmem] at ha
          exact absurd ha (by simp)
      | none =>
        simp only [if_true]
        have htailA : ∀ ev ∈ Event.sendStatus generatingStatus ::
            (runCallGraphWithSetup env dir t (env.join dir (str ".debrickedTmpFolder"))).1,
            ev.isStagingMake = false := by
          intro ev hev
          rcases List.mem_cons.mp hev with hev | hev
          · subst hev; rfl
          · exact (hcg ev hev).2.2
        refine ⟨_, ((stagingCmd env (cfg.Kwargs "pm") dir
            (env.join dir (str ".debrickedTmpFolder"))).1 ++
            [Event.sendStatus (copyingStatus (env.join dir (str ".debrickedTmpFolder"))),
              Event.cmdOutput (stagingCmd env (cfg.Kwargs "pm") dir
                (env.join dir (str ".debrickedTmpFolder"))).2.1]) ++
            Event.sendStatus generatingStatus ::
              (runCallGraphWithSetup env dir t (env.join dir (str ".debrickedTmpFolder"))).1,
          rfl, ?_, ?_, ?_, ?_, ?_⟩
        · rw [analysis_events]
          simp only [List.append_assoc]
        · intro hg
          rw [filter_isStagingMake_append _ _ htailA, hfil]
          exact hmake.1 hg
        · intro hg
          rw [filter_isStagingMake_append _ _ htailA, hfil]
          exact hmake.2 hg
        · constructor
          · intro _; exact ⟨trivial, trivial⟩
          · intro _
            exact ⟨Event.sendStatus generatingStatus,
              List.mem_append_right _ (List.mem_cons_self _ _), hgenA⟩
        · intro pre ev post hsplit ha
          exact mem_pre_of_split _ _ pre post ev _
            (List.mem_append_right _ (List.mem_cons_of_mem _ (List.mem_cons_self _ _)))
            hno hsplit ha

/-- C19 at a Maven job whose staging directory exists: `Run` sends the status
"generating call graph" and builds and runs the analysis command, nothing
else. -/
theorem Run_stages_only_when_missing_witness :
    IsNotExist ((okEnv (fun f => decide (f = str "/proj/.debrickedTmpFolder"))).stat
      ((okEnv (fun f => decide (f = str "/proj/.debrickedTmpFolder"))).join (str "/proj")
        (str ".debrickedTmpFolder"))) = false ∧
    (Run (okEnv (fun f => decide (f = str "/proj/.debrickedTmpFolder")))
      (NewJob (str "/proj") [str "/proj/classes/"] (some (pmConfig "maven")))
      ⟨⟨[]⟩, []⟩).events =
      [Event.sendStatus generatingStatus,
        Event.makeCallGraphCmd (str "/tmp/jar1/SootWrapper.jar") (str "/proj")
          (str "/proj/classes/") (str "/proj/.debrickedTmpFolder"),
        Event.runCommand [str "java", str "/tmp/jar1/SootWrapper.jar", str "/proj",
          str "/proj/classes/", str "/proj/.debrickedTmpFolder"]] ∧
    ∃ evs, Run (okEnv (fun f => decide (f = str "/proj/.debrickedTmpFolder")))
          (NewJob (str "/proj") (str "/proj/classes/" :: []) (some (pmConfig "maven")))
          ⟨⟨[]⟩, []⟩ =
        RunOutcome.done (analysis (okEnv (fun f => decide (f = str "/proj/.debrickedTmpFolder")))
          (str "/proj") (str "/proj/classes/")
          ((okEnv (fun f => decide (f = str "/proj/.debrickedTmpFolder"))).join (str "/proj")
            (str ".debrickedTmpFolder")) ⟨⟨[]⟩, []⟩) ∧
      (Run (okEnv (fun f => decide (f = str "/proj/.debrickedTmpFolder")))
          (NewJob (str "/proj") (str "/proj/classes/" :: []) (some (pmConfig "maven")))
          ⟨⟨[]⟩, []⟩).events = [] ++ Event.sendStatus generatingStatus :: evs ∧
      ∀ ev ∈ Event.sendStatus generatingStatus :: evs,
        ev.isStaging = false ∧ ev.isStagingMake = false :=
  ⟨by decide, by decide,
    (Run_stages_only_when_missing (okEnv (fun f => decide (f = str "/proj/.debrickedTmpFolder")))
      (str "/proj") (str "/proj/classes/") [] (pmConfig "maven") ⟨⟨[]⟩, []⟩).1 (by decide)⟩

/-- C20: every job that `Invoke` returns has exactly one target, so `Run` does
not panic on `GetFiles()[0]` for it and returns, whereas `Run` on a job made by
`NewJob` with an empty list of files panics on that index. -/
theorem Run_index_in_bounds_for_Invoke_jobs (fd : FinderFns) (ro : RangeOrder) (sep : Nat)
    (s : Strategy) (jobs : List Job) (err : Option String)
    (h : Invoke fd ro sep s = some (jobs, err)) :
    (∀ j ∈ jobs, j.GetFiles.length = 1 ∧
      ∀ (env : RunEnv) (st : RunState), Run env j st ≠ RunOutcome.indexOutOfRange ∧
        ∃ out, Run env j st = RunOutcome.done out) ∧
    ∀ (env : RunEnv) (dir : Path) (config : Option Config) (st : RunState),
      Run env (NewJob dir [] config) st = RunOutcome.indexOutOfRange := by
  refine ⟨?_, fun env dir config st => rfl⟩
  obtain ⟨config, files⟩ := s
  cases config with
  | none => simp [Invoke] at h
  | some cfg =>
    have h2 := Invoke_some fd ro sep cfg files
    unfold NewStrategy at h2
    rw [h2] at h
    simp only [Option.some.injEq, Prod.mk.injEq] at h
    obtain ⟨hj, _⟩ := h
    subst hj
    intro j hj
    rw [List.mem_map] at hj
    obtain ⟨entry, _, rfl⟩ := hj
    refine ⟨rfl, ?_⟩
    intro env st
    obtain ⟨out, hout⟩ := Run_done env entry.1 (GCDPath sep entry.2) [] cfg st
    refine ⟨?_, out, hout⟩
    rw [hout]
    intro hc
    cases hc

/-- C20 at the job that `Invoke` returns for the root `/proj` and the class
directory `/proj/classes/`. -/
theorem Run_index_in_bounds_for_Invoke_jobs_witness :
    Invoke (constFinder [str "/proj"] [] [str "/proj/classes/"]) insertionOrder slash
        (NewStrategy (some (pmConfig "maven")) [str "/proj/pom.xml"]) =
      some ([NewJob (str "/proj") [str "/proj/classes/"] (some (pmConfig "maven"))], none) ∧
    ((∀ j ∈ [NewJob (str "/proj") [str "/proj/classes/"] (some (pmConfig "maven"))],
      j.GetFiles.length = 1 ∧
      ∀ (env : RunEnv) (st : RunState), Run env j st ≠ RunOutcome.indexOutOfRange ∧
        ∃ out, Run env j st = RunOutcome.done out) ∧
    ∀ (env : RunEnv) (dir : Path) (config : Option Config) (st : RunState),
      Run env (NewJob dir [] config) st = RunOutcome.indexOutOfRange) :=
  ⟨by decide,
    Run_index_in_bounds_for_Invoke_jobs (constFinder [str "/proj"] [] [str "/proj/classes/"])
      insertionOrder slash (NewStrategy (some (pmConfig "maven")) [str "/proj/pom.xml"])
      [NewJob (str "/proj") [str "/proj/classes/"] (some (pmConfig "maven"))] none
      (by decide)⟩

end Java
